import Mathlib

/-!
Shallow embedding of `storage/storage.go` from the utahfs repository:
an object-storage interface (`Get`/`Set`/`Delete`) with three
implementations — the in-memory map backend (`memory`), the bounded
retry decorator (`retry`) and the LRU cache decorator (`cache`) — and
theorems settling the specification's claims about them.

Values (Go `[]byte` slices) are modelled at two levels:
* the contents level, `Value := Option (List Nat)` (a nil slice is
  `none`, a non-nil slice is the list of its bytes), used for the
  functional claims; at this level Go's `dup` preserves the bytes;
* a heap level (`Heap`, further below), where a slice is a reference
  into a heap of mutable buffers, used for the defensive-copy /
  aliasing claim.

Go errors are `nil` or an error value compared against
`utahfs.ErrObjectNotFound` by identity; we model a result as
`Except Err α` with `Err.notFound` the distinguished NotFound error
and `Err.other n` any other backend error.
-/

set_option autoImplicit false

universe u

/-- Go error values relevant to the storage layer: the distinguished
`utahfs.ErrObjectNotFound`, or any other backend error (indexed by a
natural number so distinct backend failures can be distinguished). -/
inductive Err : Type
  | notFound : Err
  | other : Nat → Err
deriving DecidableEq, Repr

/-- A Go byte slice at the contents level: `none` is the nil slice,
`some bs` a slice with bytes `bs`. -/
abbrev Value : Type := Option (List Nat)

/-- `dup` from storage.go, seen at the contents level: a nil slice stays
nil, otherwise a fresh slice with the same bytes is returned.  At this
level of the model the bytes are unchanged; the allocation behaviour of
`dup` is modelled separately in the heap model below. -/
def dup : Value → Value
  | none => none
  | some bs => some bs

/-- The `memory` backend's state: the Go map `map[string][]byte`,
modelled as an association list where the most recent binding for a key
shadows earlier ones. -/
abbrev Memory : Type := List (String × Value)

/-- Go map indexing `m[key]` with its `ok` flag: `none` means the key is
absent. -/
def Memory.lookup : Memory → String → Option Value
  | [], _ => none
  | (k', v) :: t, k => if k' = k then some v else Memory.lookup t k

/-- `memory.Get`: return a defensive copy of the stored value, or
`ErrObjectNotFound` when the key is absent.  The map itself is not
modified. -/
def Memory.get (m : Memory) (key : String) : Memory × Except Err Value :=
  match m.lookup key with
  | none => (m, .error .notFound)
  | some data => (m, .ok (dup data))

/-- `memory.Set`: store a defensive copy of the value under the key,
shadowing any previous binding; always succeeds. -/
def Memory.set (m : Memory) (key : String) (data : Value) :
    Memory × Except Err Unit :=
  ((key, dup data) :: m, .ok ())

/-- `memory.Delete`: Go `delete(m, key)`; removes every binding for the
key and always succeeds. -/
def Memory.del (m : Memory) (key : String) : Memory × Except Err Unit :=
  (m.filter (fun p => p.1 ≠ key), .ok ())

/-- The `utahfs.ObjectStorage` interface over a state type `σ`: each
operation consumes a state and produces the successor state together
with the operation's result.  (Go methods mutate the receiver; here the
mutation is explicit state passing.) -/
structure StoreOps (σ : Type u) : Type u where
  get : σ → String → σ × Except Err Value
  set : σ → String → Value → σ × Except Err Unit
  del : σ → String → σ × Except Err Unit

/-- The `memory` backend packaged as an `ObjectStorage`
(`NewMemory`). -/
def memoryOps : StoreOps Memory :=
  { get := Memory.get, set := Memory.set, del := Memory.del }

namespace Retry

variable {σ : Type u}

/-- The loop body of `retry.Get`: call the base `Get` up to `fuel`
times, returning immediately when the error is `nil` or
`ErrObjectNotFound`; when the fuel runs out, the last `(data, err)`
pair is returned.  `fuel = 0` corresponds to a loop that never runs, so
the Go named return values keep their zero values `(nil, nil)`. -/
def getLoop (ops : StoreOps σ) (key : String) : σ → Nat → σ × Except Err Value
  | s, 0 => (s, .ok none)
  | s, n + 1 =>
    match ops.get s key with
    | (s', .ok v) => (s', .ok v)
    | (s', .error e) =>
      if e = Err.notFound then (s', .error e)
      else
        match n with
        | 0 => (s', .error e)
        | m + 1 => getLoop ops key s' (m + 1)

/-- The loop body of `retry.Set`: call the base `Set` up to `fuel`
times, returning immediately on a `nil` error; when the fuel runs out
the last error is returned. -/
def setLoop (ops : StoreOps σ) (key : String) (data : Value) :
    σ → Nat → σ × Except Err Unit
  | s, 0 => (s, .ok ())
  | s, n + 1 =>
    match ops.set s key data with
    | (s', .ok u) => (s', .ok u)
    | (s', .error e) =>
      match n with
      | 0 => (s', .error e)
      | m + 1 => setLoop ops key data s' (m + 1)

/-- The loop body of `retry.Delete`, analogous to `retry.Set`. -/
def delLoop (ops : StoreOps σ) (key : String) : σ → Nat → σ × Except Err Unit
  | s, 0 => (s, .ok ())
  | s, n + 1 =>
    match ops.del s key with
    | (s', .ok u) => (s', .ok u)
    | (s', .error e) =>
      match n with
      | 0 => (s', .error e)
      | m + 1 => delLoop ops key s' (m + 1)

end Retry

/-- The `retry` decorator (`NewRetry(base, attempts)`) packaged as an
`ObjectStorage`; `NewRetry` rejects `attempts <= 0`, so its clients
always hold `0 < attempts`. -/
def retryOps {σ : Type u} (ops : StoreOps σ) (attempts : Nat) : StoreOps σ :=
  { get := fun s key => Retry.getLoop ops key s attempts
    set := fun s key data => Retry.setLoop ops key data s attempts
    del := fun s key => Retry.delLoop ops key s attempts }

/-- Modelled from the spec: the `hashicorp/golang-lru` cache used by the
`cache` decorator is vendored outside this repository, so its behaviour
is modelled from the specification's description — a bounded cache with
strict least-recently-used eviction and a capacity fixed at
construction.  `entries` is kept in recency order, most recently used
first; `size` is the fixed capacity. -/
structure LRU (α : Type u) : Type u where
  size : Nat
  entries : List (String × α)
deriving DecidableEq, Repr

/-- First binding for `key` in a recency list, if any. -/
def lruFind {α : Type u} : List (String × α) → String → Option α
  | [], _ => none
  | (k', v) :: t, k => if k' = k then some v else lruFind t k

namespace LRU

variable {α : Type u}

/-- Whether the cache currently holds `key` (hashicorp `Peek`-style
lookup without touching recency); used only to state properties. -/
def lookup (c : LRU α) (key : String) : Option α :=
  lruFind c.entries key

/-- Modelled from the spec: hashicorp `Cache.Get` — on a hit the entry
is moved to the front (most recently used) and its value returned; on a
miss the cache is unchanged. -/
def get (c : LRU α) (key : String) : LRU α × Option α :=
  match lruFind c.entries key with
  | none => (c, none)
  | some v =>
    ({ c with entries := (key, v) :: c.entries.filter (fun p => p.1 ≠ key) },
      some v)

/-- Modelled from the spec: hashicorp `Cache.Remove` — drop the entry
for `key` if present. -/
def remove (c : LRU α) (key : String) : LRU α :=
  { c with entries := c.entries.filter (fun p => p.1 ≠ key) }

/-- Modelled from the spec: hashicorp `Cache.Add` — insert the pair at
the front (removing any previous binding for the key) and evict the
least recently used entry when the capacity is exceeded. -/
def add (c : LRU α) (key : String) (v : α) : LRU α :=
  let es := (key, v) :: (c.remove key).entries
  { c with entries := if c.size < es.length then es.dropLast else es }

end LRU

/-- The `cache` decorator (`NewCache(base, size)`) packaged as an
`ObjectStorage`: its state pairs the LRU cache with the wrapped store's
state.  `NewCache` rejects non-positive sizes, so its clients always
hold `0 < size`. -/
def cacheOps {σ : Type u} (ops : StoreOps σ) : StoreOps (LRU Value × σ) :=
  { get := fun st key =>
      match st.1.get key with
      | (c', some val) => ((c', st.2), .ok (dup val))
      | (c', none) =>
        match ops.get st.2 key with
        | (s', .error e) => ((c', s'), .error e)
        | (s', .ok data) => ((c'.add key (dup data), s'), .ok data)
    set := fun st key data =>
      let c1 := st.1.remove key
      match ops.set st.2 key data with
      | (s', .error e) => ((c1, s'), .error e)
      | (s', .ok _) => ((c1.add key (dup data), s'), .ok ())
    del := fun st key =>
      let c1 := st.1.remove key
      let (s', r) := ops.del st.2 key
      ((c1, s'), r) }

/-- A mock-backend instrumentation: wrap a store so that the state also
carries a counter of how many wrapped calls have been made.  This is the
"call counter on a mock backend" the specification uses to observe
whether an operation reached the wrapped store. -/
def countingOps {σ : Type u} (ops : StoreOps σ) : StoreOps (σ × Nat) :=
  { get := fun st key =>
      let (s', r) := ops.get st.1 key
      ((s', st.2 + 1), r)
    set := fun st key data =>
      let (s', r) := ops.set st.1 key data
      ((s', st.2 + 1), r)
    del := fun st key =>
      let (s', r) := ops.del st.1 key
      ((s', st.2 + 1), r) }

section Trajectories

variable {σ : Type u}

/-- State of a wrapped store after `n` consecutive `Get key` calls
starting from `s`; used to count the wrapped calls a retry loop makes. -/
def getIter (ops : StoreOps σ) (key : String) (s : σ) : Nat → σ
  | 0 => s
  | n + 1 => (ops.get (getIter ops key s n) key).1

/-- Result of the `(n+1)`-st consecutive wrapped `Get key` call. -/
def getResAt (ops : StoreOps σ) (key : String) (s : σ) (n : Nat) :
    Except Err Value :=
  (ops.get (getIter ops key s n) key).2

/-- State after `n` consecutive wrapped `Set key data` calls. -/
def setIter (ops : StoreOps σ) (key : String) (data : Value) (s : σ) :
    Nat → σ
  | 0 => s
  | n + 1 => (ops.set (setIter ops key data s n) key data).1

/-- Result of the `(n+1)`-st consecutive wrapped `Set key data` call. -/
def setResAt (ops : StoreOps σ) (key : String) (data : Value) (s : σ)
    (n : Nat) : Except Err Unit :=
  (ops.set (setIter ops key data s n) key data).2

/-- State after `n` consecutive wrapped `Delete key` calls. -/
def delIter (ops : StoreOps σ) (key : String) (s : σ) : Nat → σ
  | 0 => s
  | n + 1 => (ops.del (delIter ops key s n) key).1

/-- Result of the `(n+1)`-st consecutive wrapped `Delete key` call. -/
def delResAt (ops : StoreOps σ) (key : String) (s : σ) (n : Nat) :
    Except Err Unit :=
  (ops.del (delIter ops key s n) key).2

/-- A `Get` attempt the retry loop stops at: a `nil` error or the
distinguished NotFound answer. -/
def getTerminal : Except Err Value → Prop
  | .ok _ => True
  | .error e => e = Err.notFound

instance : DecidablePred getTerminal := by
  intro r
  cases r with
  | ok _ => exact isTrue trivial
  | error e => exact inferInstanceAs (Decidable (e = Err.notFound))

/-- A `Set`/`Delete` attempt the retry loop stops at: a `nil` error. -/
def okResult : Except Err Unit → Prop
  | .ok _ => True
  | .error _ => False

instance : DecidablePred okResult := by
  intro r
  cases r with
  | ok _ => exact isTrue trivial
  | error e => exact isFalse (fun h => h)

end Trajectories

/-- A scripted mock backend over a call-counter state, used to witness
the decorator claims on concrete runs: the `n`-th call (counting from
zero) returns the scripted result and bumps the counter. -/
def oracleStore (fg : Nat → Except Err Value) (fs : Nat → Except Err Unit)
    (fd : Nat → Except Err Unit) : StoreOps Nat :=
  { get := fun n _ => (n + 1, fg n)
    set := fun n _ _ => (n + 1, fs n)
    del := fun n _ => (n + 1, fd n) }

/-- One step of the cache-eviction workload: insert a key/value pair
into a cache over the counting memory backend, either through a
successful `Set` (mode `true`) or through a `Get`-miss fill (mode
`false`). -/
def insStep (st : LRU Value × (Memory × Nat)) (p : Bool × String × Value) :
    LRU Value × (Memory × Nat) :=
  match p.1 with
  | true => ((cacheOps (countingOps memoryOps)).set st p.2.1 p.2.2).1
  | false => ((cacheOps (countingOps memoryOps)).get st p.2.1).1

/-- Run a whole insertion workload, left to right. -/
def insertAll (steps : List (Bool × String × Value))
    (st : LRU Value × (Memory × Nat)) : LRU Value × (Memory × Nat) :=
  steps.foldl insStep st

/-- The cache entry a workload step gives rise to. -/
def entryOf (p : Bool × String × Value) : String × Value :=
  (p.2.1, p.2.2)

/-- A decorator composition over the in-memory backend: `mem` is
`NewMemory()`, `retry n c` is `NewRetry(c, n)` and `cache n c` is
`NewCache(c, n)`.  This is the "linear pipeline" assembly the
specification's composition rule describes. -/
inductive Comp : Type
  | mem : Comp
  | retry : Nat → Comp → Comp
  | cache : Nat → Comp → Comp

/-- The state type of a composition: the memory map at the leaf, plus
one LRU cache per `cache` layer (`retry` layers carry no state of their
own). -/
def Comp.State : Comp → Type
  | .mem => Memory
  | .retry _ c => c.State
  | .cache _ c => LRU Value × c.State

/-- The `ObjectStorage` implementation of a composition, layer by
layer. -/
def Comp.stOps : (c : Comp) → StoreOps c.State
  | .mem => memoryOps
  | .retry n c => retryOps c.stOps n
  | .cache _ c => cacheOps c.stOps

/-- The freshly constructed state of a composition: an empty memory map
and empty caches of the requested sizes. -/
def Comp.init : (c : Comp) → c.State
  | .mem => []
  | .retry _ c => c.init
  | .cache size c => (⟨size, []⟩, c.init)

/-- Well-formedness enforced by the constructors: `NewRetry` rejects
`attempts <= 0` and `lru.New` rejects `size <= 0`, so every composition
actually built by the code has positive attempts and cache sizes. -/
def Comp.wf : Comp → Bool
  | .mem => true
  | .retry n c => decide (0 < n) && c.wf
  | .cache size c => decide (0 < size) && c.wf

/-- An operation issued by a caller against the top of a composition. -/
inductive Op : Type
  | get : String → Op
  | set : String → Value → Op
  | del : String → Op

/-- Run one caller operation against a composition, keeping the state. -/
def Comp.step (c : Comp) (s : c.State) : Op → c.State
  | .get k => (c.stOps.get s k).1
  | .set k v => (c.stOps.set s k v).1
  | .del k => (c.stOps.del s k).1

/-- Run a whole history of caller operations, left to right. -/
def Comp.run (c : Comp) (hist : List Op) (s : c.State) : c.State :=
  hist.foldl c.step s

/-- One step of the key-liveness bookkeeping on a history: tracks
whether `k` is absent after the operation, given whether it was absent
before. -/
def absStep (k : String) (b : Bool) : Op → Bool
  | .get _ => b
  | .set k' _ => if k' = k then false else b
  | .del k' => if k' = k then true else b

/-- `keyAbsent k hist` holds when, at the end of `hist`, the key `k`
was never set, or its most recent mutation was a `Delete`. -/
def keyAbsent (k : String) (hist : List Op) : Bool :=
  hist.foldl (absStep k) true

/-- The invariant behind the NotFound claims: `k` has no binding at any
layer of the composition's state — no entry in the memory map and no
entry in any cache. -/
def Comp.absent (k : String) : (c : Comp) → c.State → Prop
  | .mem, m => m.lookup k = none
  | .retry _ c, s => c.absent k s
  | .cache _ c, st => st.1.lookup k = none ∧ c.absent k st.2

/-!
### Heap model of slices

The contents-level model above cannot express aliasing, so the
defensive-copy claim is settled against a second, heap-level embedding
of `dup`, the `memory` backend, and the cache decorator's entry
handling.  A heap is an allocation counter plus buffer contents for
every reference; a slice is `none` (nil) or `some r` for a reference
`r` into the heap.
-/

/-- A heap of byte buffers: `next` is the next fresh reference, `data r`
the bytes currently stored in buffer `r`. -/
structure Heap : Type where
  next : Nat
  data : Nat → List Nat

/-- A slice at the heap level: nil, or a reference to a buffer. -/
abbrev Ref : Type := Option Nat

/-- The bytes a slice denotes (`none` for the nil slice). -/
def Heap.read (h : Heap) : Ref → Option (List Nat)
  | none => none
  | some r => some (h.data r)

/-- Allocate a fresh buffer holding `bs`. -/
def Heap.alloc (h : Heap) (bs : List Nat) : Heap × Nat :=
  ({ next := h.next + 1
     data := fun j => if j = h.next then bs else h.data j }, h.next)

/-- Overwrite the bytes of buffer `i` in place: the caller (or a holder
of a slice returned by `Get`) mutating a buffer it owns. -/
def Heap.write (h : Heap) (i : Nat) (bs : List Nat) : Heap :=
  { h with data := fun j => if j = i then bs else h.data j }

/-- `dup` from storage.go at the heap level: nil stays nil; otherwise a
fresh buffer is allocated and the bytes are copied into it. -/
def hdup (h : Heap) : Ref → Heap × Ref
  | none => (h, none)
  | some r =>
    let (h', r') := h.alloc (h.data r)
    (h', some r')

/-- The `memory` backend at the heap level: the map holds slices
(references), exactly as the Go map holds `[]byte` headers. -/
abbrev HMemory : Type := List (String × Ref)

/-- Go map indexing for the heap-level memory. -/
def hmemLookup : HMemory → String → Option Ref
  | [], _ => none
  | (k', v) :: t, k => if k' = k then some v else hmemLookup t k

/-- `memory.Get` at the heap level: `dup` the stored slice and return
the fresh copy (egress boundary). -/
def hmemGet (h : Heap) (m : HMemory) (key : String) :
    Heap × Except Err Ref :=
  match hmemLookup m key with
  | none => (h, .error .notFound)
  | some r =>
    let (h', r') := hdup h r
    (h', .ok r')

/-- `memory.Set` at the heap level: store a `dup` of the caller's slice
(ingestion boundary); always succeeds. -/
def hmemSet (h : Heap) (m : HMemory) (key : String) (data : Ref) :
    Heap × HMemory :=
  let (h', r') := hdup h data
  (h', (key, r') :: m)

/-- The cache decorator's state at the heap level: an LRU of slices in
front of a heap-level memory backend. -/
abbrev HCacheState : Type := LRU Ref × HMemory

/-- `cache.Get` at the heap level over a `memory` base: on a hit,
return a `dup` of the cached slice (egress); on a miss, fetch from the
base and cache a `dup` of the fetched slice while returning the fetched
slice itself. -/
def hcacheGet (h : Heap) (st : HCacheState) (key : String) :
    Heap × HCacheState × Except Err Ref :=
  match st.1.get key with
  | (c', some valRef) =>
    let (h', r') := hdup h valRef
    (h', (c', st.2), .ok r')
  | (c', none) =>
    match hmemGet h st.2 key with
    | (h', .error e) => (h', (c', st.2), .error e)
    | (h', .ok dataRef) =>
      let (h'', r'') := hdup h' dataRef
      (h'', (c'.add key r'', st.2), .ok dataRef)

/-- `cache.Set` at the heap level over a `memory` base: drop any cached
entry, write through to the base (which always succeeds for `memory`),
then cache a `dup` of the caller's slice (ingestion boundary). -/
def hcacheSet (h : Heap) (st : HCacheState) (key : String) (data : Ref) :
    Heap × HCacheState × Except Err Unit :=
  let c1 := st.1.remove key
  let (h1, m1) := hmemSet h st.2 key data
  let (h2, r2) := hdup h1 data
  (h2, (c1.add key r2, m1), .ok ())

/-- Concrete fixture heap for the aliasing witnesses: one allocated
buffer (reference 0) holding the bytes `[1, 2]`. -/
def heap0 : Heap :=
  ⟨1, fun j => if j = 0 then [1, 2] else []⟩

/-!
## Theorems

Helper lemmas first, then one theorem per claim (with a witness when
the theorem has hypotheses).
-/

section Helpers

variable {σ : Type u} {α : Type u}

/-- At the contents level, `dup` preserves the bytes. -/
theorem dup_eq (v : Value) : dup v = v := by
  cases v <;> rfl

/-- Characterisation of an absent key in a recency list. -/
theorem lruFind_eq_none_iff {l : List (String × α)} {k : String} :
    lruFind l k = none ↔ ∀ p ∈ l, p.1 ≠ k := by
  induction l with
  | nil => simp [lruFind]
  | cons q t ih =>
    obtain ⟨k', v⟩ := q
    by_cases hk : k' = k
    · subst hk
      simp [lruFind]
    · simp [lruFind, hk, ih]

/-- An absent key stays absent in any subcollection of the entries. -/
theorem lruFind_eq_none_of_subset {l l' : List (String × α)} {k : String}
    (hsub : ∀ p ∈ l', p ∈ l) (h : lruFind l k = none) :
    lruFind l' k = none := by
  rw [lruFind_eq_none_iff] at h ⊢
  exact fun p hp => h p (hsub p hp)

/-- Looking a key up in a recency list with no duplicate keys finds the
unique binding. -/
theorem lruFind_eq_some_of_mem {l : List (String × α)} {k : String} {v : α}
    (hnd : (l.map Prod.fst).Nodup) (hmem : (k, v) ∈ l) :
    lruFind l k = some v := by
  induction l with
  | nil => cases hmem
  | cons q t ih =>
    obtain ⟨k', v'⟩ := q
    rw [List.map_cons, List.nodup_cons] at hnd
    rcases List.mem_cons.mp hmem with hq | ht
    · cases hq
      simp [lruFind]
    · have hk : k' ≠ k := by
        intro hkk
        exact hnd.1 (by rw [hkk]; exact List.mem_map.mpr ⟨(k, v), ht, rfl⟩)
      simp [lruFind, hk, ih hnd.2 ht]

end Helpers

section HelpersLRU

variable {α : Type u}

/-- When the key is absent, `remove` (a filter) leaves the entries
unchanged. -/
theorem remove_entries_fresh (c : LRU α) (key : String)
    (hfresh : lruFind c.entries key = none) :
    (c.remove key).entries = c.entries := by
  rw [lruFind_eq_none_iff] at hfresh
  exact List.filter_eq_self.mpr (fun p hp => by simpa using hfresh p hp)

/-- Unfolding equation for the entries after an `add`. -/
theorem add_entries_def (c : LRU α) (key : String) (v : α) :
    (c.add key v).entries
      = if c.size < ((key, v) :: (c.remove key).entries).length
          then ((key, v) :: (c.remove key).entries).dropLast
          else ((key, v) :: (c.remove key).entries) := rfl

/-- After `add`, the key is bound to the added value — provided the
capacity is positive, so that the new front entry is not itself the one
evicted. -/
theorem lruFind_add_self (c : LRU α) (key : String) (v : α)
    (hsize : 0 < c.size) :
    lruFind (c.add key v).entries key = some v := by
  rw [add_entries_def]
  rcases h0 : (c.remove key).entries with _ | ⟨q, t⟩
  · have h1 : c.size ≠ 0 := by omega
    simp [h1, lruFind]
  · by_cases hlen : c.size < ((key, v) :: q :: t).length
    · simp only [if_pos hlen, List.dropLast_cons₂]
      simp [lruFind]
    · simp only [if_neg hlen]
      simp [lruFind]

/-- After `add`, the key is either bound to the added value or (when a
zero-capacity cache evicts the entry it just added) absent. -/
theorem lruFind_add_self_or (c : LRU α) (key : String) (v : α) :
    lruFind (c.add key v).entries key = some v ∨
      lruFind (c.add key v).entries key = none := by
  rw [add_entries_def]
  rcases h0 : (c.remove key).entries with _ | ⟨q, t⟩
  · by_cases hlen : c.size = 0
    · right
      simp [hlen, lruFind]
    · left
      simp [hlen, lruFind]
  · by_cases hlen : c.size < ((key, v) :: q :: t).length
    · left
      simp only [if_pos hlen, List.dropLast_cons₂]
      simp [lruFind]
    · left
      simp only [if_neg hlen]
      simp [lruFind]

/-- Every entry of `add c key v` is the new pair or one of the old
entries. -/
theorem mem_add_entries (c : LRU α) (key : String) (v : α) {p : String × α}
    (hp : p ∈ (c.add key v).entries) :
    p = (key, v) ∨ p ∈ c.entries := by
  have hp' : p ∈ (key, v) :: (c.remove key).entries := by
    rw [add_entries_def] at hp
    by_cases hlen : c.size < ((key, v) :: (c.remove key).entries).length
    · rw [if_pos hlen] at hp
      exact (List.dropLast_sublist _).subset hp
    · rwa [if_neg hlen] at hp
  rcases List.mem_cons.mp hp' with h | h
  · exact Or.inl h
  · exact Or.inr (List.mem_of_mem_filter h)

/-- Adding a fresh key to a cache whose entries fit the capacity keeps
the entries in `take`-normal form. -/
theorem add_entries_fresh (c : LRU α) (key : String) (v : α)
    (hfresh : lruFind c.entries key = none)
    (hlen : c.entries.length ≤ c.size) :
    (c.add key v).entries = List.take c.size ((key, v) :: c.entries) := by
  rw [add_entries_def, remove_entries_fresh c key hfresh]
  by_cases hel : c.size < ((key, v) :: c.entries).length
  · have hsz : c.entries.length = c.size := by
      simp at hel
      omega
    rw [if_pos (by simpa using hel), List.dropLast_eq_take]
    simp [hsz]
  · rw [if_neg hel, List.take_of_length_le (by omega)]

/-- `take n` absorbs an inner `take n` under a cons. -/
theorem take_cons_take (n : Nat) (x : α) (l : List α) :
    List.take n (x :: List.take n l) = List.take n (x :: l) := by
  cases n with
  | zero => rfl
  | succ m =>
    simp [List.take_take, Nat.min_eq_left (Nat.le_succ m)]

end HelpersLRU

/-- **C10**: a `retry` decorator constructed with `attempts = 1` is
observationally equivalent to the wrapped store: each of
`Get`/`Set`/`Delete` makes exactly one wrapped call (the resulting
wrapped state is that of a single call) and returns precisely its
result — same value and same error, NotFound included. -/
theorem C10_retry_one_equiv {σ : Type u} (ops : StoreOps σ) (s : σ)
    (key : String) (data : Value) :
    (retryOps ops 1).get s key = ops.get s key ∧
    (retryOps ops 1).set s key data = ops.set s key data ∧
    (retryOps ops 1).del s key = ops.del s key := by
  refine ⟨?_, ?_, ?_⟩
  · show Retry.getLoop ops key s 1 = ops.get s key
    rcases hg : ops.get s key with ⟨s', r⟩
    cases r with
    | ok v => simp [Retry.getLoop, hg]
    | error e =>
      by_cases he : e = Err.notFound <;> simp [Retry.getLoop, hg, he]
  · show Retry.setLoop ops key data s 1 = ops.set s key data
    rcases hg : ops.set s key data with ⟨s', r⟩
    cases r with
    | ok u => simp [Retry.setLoop, hg]
    | error e => simp [Retry.setLoop, hg]
  · show Retry.delLoop ops key s 1 = ops.del s key
    rcases hg : ops.del s key with ⟨s', r⟩
    cases r with
    | ok u => simp [Retry.delLoop, hg]
    | error e => simp [Retry.delLoop, hg]

/-- **C8**: when `cache.Get` misses and the wrapped `Get` fails
(NotFound included), the wrapped store's error is propagated unchanged
and the cache is left exactly as it was — no entry inserted or
evicted. -/
theorem C8_cache_miss_error_frame {σ : Type u} (ops : StoreOps σ)
    (c : LRU Value) (s s' : σ) (key : String) (e : Err)
    (hmiss : c.lookup key = none)
    (hbase : ops.get s key = (s', .error e)) :
    (cacheOps ops).get (c, s) key = ((c, s'), .error e) := by
  have hf : lruFind c.entries key = none := hmiss
  simp [cacheOps, LRU.get, hf, hbase]

/-- Witness for C8 at a concrete input: a cache holding `"b"` in front
of a backend whose `Get` fails with backend error 3; getting `"a"`
propagates the error and leaves the cache untouched. -/
theorem C8_cache_miss_error_frame_witness :
    (cacheOps (oracleStore (fun _ => .error (.other 3)) (fun _ => .ok ())
        (fun _ => .ok ()))).get (⟨2, [("b", some [7])]⟩, 0) "a"
      = ((⟨2, [("b", some [7])]⟩, 1), .error (.other 3)) :=
  C8_cache_miss_error_frame _ _ _ _ _ _ (by decide) rfl

/-- Removing a key leaves it absent from the cache. -/
theorem lruFind_remove_self {α : Type u} (c : LRU α) (key : String) :
    (c.remove key).lookup key = none := by
  rw [LRU.lookup, lruFind_eq_none_iff]
  intro p hp
  simpa using List.of_mem_filter hp

/-- **C7**: after `cache.Set(k, v)` succeeds, an immediately following
`cache.Get(k)` returns a value equal to `v` and makes no call to the
wrapped store: the wrapped state, call counter included, is unchanged
by the `Get`. -/
theorem C7_cache_set_get_no_backend {σ : Type u} (ops : StoreOps σ)
    (c : LRU Value) (s s' : σ) (n : Nat) (key : String) (data : Value)
    (hsize : 0 < c.size)
    (hbase : ops.set s key data = (s', .ok ())) :
    ((cacheOps (countingOps ops)).set (c, (s, n)) key data).2 = .ok () ∧
    ((cacheOps (countingOps ops)).get
        ((cacheOps (countingOps ops)).set (c, (s, n)) key data).1 key).2
      = .ok data ∧
    ((cacheOps (countingOps ops)).get
        ((cacheOps (countingOps ops)).set (c, (s, n)) key data).1 key).1.2
      = ((cacheOps (countingOps ops)).set (c, (s, n)) key data).1.2 := by
  have hset : (cacheOps (countingOps ops)).set (c, (s, n)) key data
      = (((c.remove key).add key data, (s', n + 1)), .ok ()) := by
    simp [cacheOps, countingOps, hbase, dup_eq]
  have hfind : lruFind ((c.remove key).add key data).entries key = some data :=
    lruFind_add_self (c.remove key) key data hsize
  rw [hset]
  refine ⟨rfl, ?_, ?_⟩ <;> simp [cacheOps, LRU.get, hfind, dup_eq]

/-- Witness for C7 at a concrete input: a successful write of `[5]`
under `"a"` through a capacity-1 cache; the following get returns `[5]`
with the backend counter still at 1. -/
theorem C7_cache_set_get_no_backend_witness :
    ((cacheOps (countingOps (oracleStore (fun _ => .error .notFound)
        (fun _ => .ok ()) (fun _ => .ok ())))).set
        (⟨1, []⟩, (0, 0)) "a" (some [5])).2 = .ok () ∧
    ((cacheOps (countingOps (oracleStore (fun _ => .error .notFound)
        (fun _ => .ok ()) (fun _ => .ok ())))).get
        ((cacheOps (countingOps (oracleStore (fun _ => .error .notFound)
        (fun _ => .ok ()) (fun _ => .ok ())))).set
        (⟨1, []⟩, (0, 0)) "a" (some [5])).1 "a").2 = .ok (some [5]) ∧
    ((cacheOps (countingOps (oracleStore (fun _ => .error .notFound)
        (fun _ => .ok ()) (fun _ => .ok ())))).get
        ((cacheOps (countingOps (oracleStore (fun _ => .error .notFound)
        (fun _ => .ok ()) (fun _ => .ok ())))).set
        (⟨1, []⟩, (0, 0)) "a" (some [5])).1 "a").1.2
      = ((cacheOps (countingOps (oracleStore (fun _ => .error .notFound)
        (fun _ => .ok ()) (fun _ => .ok ())))).set
        (⟨1, []⟩, (0, 0)) "a" (some [5])).1.2 :=
  C7_cache_set_get_no_backend _ _ 0 1 0 "a" (some [5]) (by decide) rfl

/-- **C4**: when the wrapped write fails, `cache.Set` returns the
wrapped store's error unchanged and the cache afterwards holds no entry
for the key, so a later `cache.Get` falls through to the wrapped
backend (the mock call counter increments); the cache entry is inserted
only when the wrapped write succeeds. -/
theorem C4_cache_set_error_no_entry {σ : Type u} (ops : StoreOps σ)
    (c : LRU Value) (s : σ) (n : Nat) (key : String) (data : Value) :
    (∀ s' e, ops.set s key data = (s', .error e) →
      (cacheOps (countingOps ops)).set (c, (s, n)) key data
          = ((c.remove key, (s', n + 1)), .error e) ∧
      (c.remove key).lookup key = none ∧
      ((cacheOps (countingOps ops)).get (c.remove key, (s', n + 1)) key).1.2.2
          = n + 1 + 1) ∧
    (∀ s', ops.set s key data = (s', .ok ()) → 0 < c.size →
      ((cacheOps (countingOps ops)).set (c, (s, n)) key data).1.1.lookup key
          = some (dup data)) := by
  constructor
  · intro s' e hbase
    refine ⟨by simp [cacheOps, countingOps, hbase], lruFind_remove_self c key, ?_⟩
    have hm : lruFind (c.remove key).entries key = none := lruFind_remove_self c key
    rcases hbg : ops.get s' key with ⟨s'', r⟩
    cases r <;> simp [cacheOps, countingOps, LRU.get, hm, hbg]
  · intro s' hbase hsize
    have hset : (cacheOps (countingOps ops)).set (c, (s, n)) key data
        = (((c.remove key).add key (dup data), (s', n + 1)), .ok ()) := by
      simp [cacheOps, countingOps, hbase]
    rw [hset]
    exact lruFind_add_self (c.remove key) key (dup data) hsize

/-- Witness for C4 at concrete inputs: a backend whose write always
fails with error 9 (left conjunct) and one whose write succeeds (right
conjunct), each behind a capacity-1 cache. -/
theorem C4_cache_set_error_no_entry_witness :
    ((cacheOps (countingOps (oracleStore (fun _ => .error .notFound)
        (fun _ => .error (.other 9)) (fun _ => .ok ())))).set
        (⟨1, [("a", some [1])]⟩, (0, 0)) "a" (some [5])
      = (((⟨1, [("a", some [1])]⟩ : LRU Value).remove "a", (1, 1)),
          .error (.other 9)) ∧
     ((⟨1, [("a", some [1])]⟩ : LRU Value).remove "a").lookup "a" = none ∧
     ((cacheOps (countingOps (oracleStore (fun _ => .error .notFound)
        (fun _ => .error (.other 9)) (fun _ => .ok ())))).get
        ((⟨1, [("a", some [1])]⟩ : LRU Value).remove "a", (1, 1)) "a").1.2.2
      = 0 + 1 + 1) ∧
    ((cacheOps (countingOps (oracleStore (fun _ => .error .notFound)
        (fun _ => .ok ()) (fun _ => .ok ())))).set
        (⟨1, []⟩, (0, 0)) "a" (some [5])).1.1.lookup "a"
      = some (dup (some [5])) :=
  ⟨(C4_cache_set_error_no_entry _ _ 0 0 "a" (some [5])).1 1 (.other 9) rfl,
   (C4_cache_set_error_no_entry _ _ 0 0 "a" (some [5])).2 1 rfl (by decide)⟩

section RetryTrajectory

variable {σ : Type u}

/-- Shifting a `Get` trajectory past its first call. -/
theorem getIter_shift (ops : StoreOps σ) (key : String) (s : σ) (i : Nat) :
    getIter ops key ((ops.get s key).1) i = getIter ops key s (i + 1) := by
  induction i with
  | zero => rfl
  | succ m ih => simp only [getIter, ih]

/-- Shifting the result sequence of a `Get` trajectory past its first
call. -/
theorem getResAt_shift (ops : StoreOps σ) (key : String) (s : σ) (i : Nat) :
    getResAt ops key ((ops.get s key).1) i = getResAt ops key s (i + 1) := by
  simp only [getResAt, getIter_shift]

/-- The `retry.Get` loop skips a prefix of failing (non-terminal)
attempts. -/
theorem getLoop_skip (ops : StoreOps σ) (key : String) (m f : Nat) (s : σ)
    (hfail : ∀ i, i < m → ¬ getTerminal (getResAt ops key s i)) :
    Retry.getLoop ops key s (m + (f + 1))
      = Retry.getLoop ops key (getIter ops key s m) (f + 1) := by
  induction m generalizing s with
  | zero => rw [Nat.zero_add]; rfl
  | succ m ih =>
    have h0 : ¬ getTerminal (getResAt ops key s 0) := hfail 0 (Nat.succ_pos m)
    rcases hg : ops.get s key with ⟨s1, r⟩
    have hr : getResAt ops key s 0 = r := by rw [getResAt, getIter, hg]
    rw [hr] at h0
    cases r with
    | ok v => exact absurd trivial h0
    | error e =>
      have he : ¬ e = Err.notFound := h0
      have hstep : Retry.getLoop ops key s (m + 1 + (f + 1))
          = Retry.getLoop ops key s1 (m + (f + 1)) := by
        rw [show m + 1 + (f + 1) = ((m + f) + 1) + 1 by omega,
          Retry.getLoop.eq_2, hg]
        simp only [he, if_false]
        rw [show (m + f) + 1 = m + (f + 1) by omega]
      rw [hstep]
      have hs1 : s1 = (ops.get s key).1 := by rw [hg]
      subst hs1
      rw [ih ((ops.get s key).1)
        (fun i hi => by
          rw [getResAt_shift]
          exact hfail (i + 1) (by omega))]
      rw [getIter_shift]

/-- The `retry.Get` loop stops at the first terminal attempt and
returns its result, having made exactly `j + 1` wrapped calls. -/
theorem getLoop_first_terminal (ops : StoreOps σ) (key : String)
    (N j : Nat) (s : σ) (hj : j < N)
    (hterm : getTerminal (getResAt ops key s j))
    (hfail : ∀ i, i < j → ¬ getTerminal (getResAt ops key s i)) :
    Retry.getLoop ops key s N
      = (getIter ops key s (j + 1), getResAt ops key s j) := by
  obtain ⟨f, rfl⟩ : ∃ f, N = j + (f + 1) := ⟨N - j - 1, by omega⟩
  rw [getLoop_skip ops key j f s hfail]
  rcases hg : ops.get (getIter ops key s j) key with ⟨s1, r⟩
  have hs1 : getIter ops key s (j + 1) = s1 := by rw [getIter, hg]
  have hr : getResAt ops key s j = r := by rw [getResAt, hg]
  rw [hr] at hterm
  cases r with
  | ok v => simp [Retry.getLoop, hg, hs1, hr]
  | error e =>
    have he : e = Err.notFound := hterm
    simp [Retry.getLoop, hg, he, hs1, hr]

/-- When every one of the `N` wrapped `Get` attempts fails with a
retryable error, the loop makes exactly `N` wrapped calls and returns
the last attempt's result. -/
theorem getLoop_all_fail (ops : StoreOps σ) (key : String) (N : Nat)
    (s : σ) (hN : 0 < N)
    (hfail : ∀ i, i < N → ¬ getTerminal (getResAt ops key s i)) :
    Retry.getLoop ops key s N
      = (getIter ops key s N, getResAt ops key s (N - 1)) := by
  obtain ⟨m, rfl⟩ : ∃ m, N = m + 1 := ⟨N - 1, by omega⟩
  rw [show m + 1 = m + (0 + 1) by omega,
    getLoop_skip ops key m 0 s (fun i hi => hfail i (by omega))]
  rcases hg : ops.get (getIter ops key s m) key with ⟨s1, r⟩
  have hr : getResAt ops key s m = r := by rw [getResAt, hg]
  have hfm := hfail m (by omega)
  rw [hr] at hfm
  cases r with
  | ok v => exact absurd trivial hfm
  | error e =>
    have he : ¬ e = Err.notFound := hfm
    have hs1 : getIter ops key s (m + 1) = s1 := by rw [getIter, hg]
    simp [Retry.getLoop, hg, he, hs1, hr]

/-- Shifting a `Set` trajectory past its first call. -/
theorem setIter_shift (ops : StoreOps σ) (key : String) (data : Value)
    (s : σ) (i : Nat) :
    setIter ops key data ((ops.set s key data).1) i
      = setIter ops key data s (i + 1) := by
  induction i with
  | zero => rfl
  | succ m ih => simp only [setIter, ih]

/-- Shifting the result sequence of a `Set` trajectory past its first
call. -/
theorem setResAt_shift (ops : StoreOps σ) (key : String) (data : Value)
    (s : σ) (i : Nat) :
    setResAt ops key data ((ops.set s key data).1) i
      = setResAt ops key data s (i + 1) := by
  simp only [setResAt, setIter_shift]

/-- The `retry.Set` loop skips a prefix of failing attempts. -/
theorem setLoop_skip (ops : StoreOps σ) (key : String) (data : Value)
    (m f : Nat) (s : σ)
    (hfail : ∀ i, i < m → ¬ okResult (setResAt ops key data s i)) :
    Retry.setLoop ops key data s (m + (f + 1))
      = Retry.setLoop ops key data (setIter ops key data s m) (f + 1) := by
  induction m generalizing s with
  | zero => rw [Nat.zero_add]; rfl
  | succ m ih =>
    have h0 : ¬ okResult (setResAt ops key data s 0) := hfail 0 (Nat.succ_pos m)
    rcases hg : ops.set s key data with ⟨s1, r⟩
    have hr : setResAt ops key data s 0 = r := by rw [setResAt, setIter, hg]
    rw [hr] at h0
    cases r with
    | ok u => exact absurd trivial h0
    | error e =>
      have hstep : Retry.setLoop ops key data s (m + 1 + (f + 1))
          = Retry.setLoop ops key data s1 (m + (f + 1)) := by
        rw [show m + 1 + (f + 1) = ((m + f) + 1) + 1 by omega,
          Retry.setLoop.eq_2, hg]
        show Retry.setLoop ops key data s1 ((m + f) + 1)
          = Retry.setLoop ops key data s1 (m + (f + 1))
        rw [show (m + f) + 1 = m + (f + 1) by omega]
      rw [hstep]
      have hs1 : s1 = (ops.set s key data).1 := by rw [hg]
      subst hs1
      rw [ih ((ops.set s key data).1)
        (fun i hi => by
          rw [setResAt_shift]
          exact hfail (i + 1) (by omega))]
      rw [setIter_shift]

/-- The `retry.Set` loop stops at the first successful attempt, having
made exactly `j + 1` wrapped calls. -/
theorem setLoop_first_ok (ops : StoreOps σ) (key : String) (data : Value)
    (N j : Nat) (s : σ) (hj : j < N)
    (hok : okResult (setResAt ops key data s j))
    (hfail : ∀ i, i < j → ¬ okResult (setResAt ops key data s i)) :
    Retry.setLoop ops key data s N
      = (setIter ops key data s (j + 1), setResAt ops key data s j) := by
  obtain ⟨f, rfl⟩ : ∃ f, N = j + (f + 1) := ⟨N - j - 1, by omega⟩
  rw [setLoop_skip ops key data j f s hfail]
  rcases hg : ops.set (setIter ops key data s j) key data with ⟨s1, r⟩
  have hs1 : setIter ops key data s (j + 1) = s1 := by rw [setIter, hg]
  have hr : setResAt ops key data s j = r := by rw [setResAt, hg]
  rw [hr] at hok
  cases r with
  | ok u => simp [Retry.setLoop, hg, hs1, hr]
  | error e => exact absurd hok (fun h => h)

/-- When every one of the `N` wrapped `Set` attempts fails, the loop
makes exactly `N` wrapped calls and returns the last attempt's error. -/
theorem setLoop_all_fail (ops : StoreOps σ) (key : String) (data : Value)
    (N : Nat) (s : σ) (hN : 0 < N)
    (hfail : ∀ i, i < N → ¬ okResult (setResAt ops key data s i)) :
    Retry.setLoop ops key data s N
      = (setIter ops key data s N, setResAt ops key data s (N - 1)) := by
  obtain ⟨m, rfl⟩ : ∃ m, N = m + 1 := ⟨N - 1, by omega⟩
  rw [show m + 1 = m + (0 + 1) by omega,
    setLoop_skip ops key data m 0 s (fun i hi => hfail i (by omega))]
  rcases hg : ops.set (setIter ops key data s m) key data with ⟨s1, r⟩
  have hr : setResAt ops key data s m = r := by rw [setResAt, hg]
  have hfm := hfail m (by omega)
  rw [hr] at hfm
  cases r with
  | ok u => exact absurd trivial hfm
  | error e =>
    have hs1 : setIter ops key data s (m + 1) = s1 := by rw [setIter, hg]
    simp [Retry.setLoop, hg, hs1, hr]

/-- Shifting a `Delete` trajectory past its first call. -/
theorem delIter_shift (ops : StoreOps σ) (key : String) (s : σ) (i : Nat) :
    delIter ops key ((ops.del s key).1) i = delIter ops key s (i + 1) := by
  induction i with
  | zero => rfl
  | succ m ih => simp only [delIter, ih]

/-- Shifting the result sequence of a `Delete` trajectory past its
first call. -/
theorem delResAt_shift (ops : StoreOps σ) (key : String) (s : σ) (i : Nat) :
    delResAt ops key ((ops.del s key).1) i = delResAt ops key s (i + 1) := by
  simp only [delResAt, delIter_shift]

/-- The `retry.Delete` loop skips a prefix of failing attempts. -/
theorem delLoop_skip (ops : StoreOps σ) (key : String) (m f : Nat) (s : σ)
    (hfail : ∀ i, i < m → ¬ okResult (delResAt ops key s i)) :
    Retry.delLoop ops key s (m + (f + 1))
      = Retry.delLoop ops key (delIter ops key s m) (f + 1) := by
  induction m generalizing s with
  | zero => rw [Nat.zero_add]; rfl
  | succ m ih =>
    have h0 : ¬ okResult (delResAt ops key s 0) := hfail 0 (Nat.succ_pos m)
    rcases hg : ops.del s key with ⟨s1, r⟩
    have hr : delResAt ops key s 0 = r := by rw [delResAt, delIter, hg]
    rw [hr] at h0
    cases r with
    | ok u => exact absurd trivial h0
    | error e =>
      have hstep : Retry.delLoop ops key s (m + 1 + (f + 1))
          = Retry.delLoop ops key s1 (m + (f + 1)) := by
        rw [show m + 1 + (f + 1) = ((m + f) + 1) + 1 by omega,
          Retry.delLoop.eq_2, hg]
        show Retry.delLoop ops key s1 ((m + f) + 1)
          = Retry.delLoop ops key s1 (m + (f + 1))
        rw [show (m + f) + 1 = m + (f + 1) by omega]
      rw [hstep]
      have hs1 : s1 = (ops.del s key).1 := by rw [hg]
      subst hs1
      rw [ih ((ops.del s key).1)
        (fun i hi => by
          rw [delResAt_shift]
          exact hfail (i + 1) (by omega))]
      rw [delIter_shift]

/-- The `retry.Delete` loop stops at the first successful attempt,
having made exactly `j + 1` wrapped calls. -/
theorem delLoop_first_ok (ops : StoreOps σ) (key : String)
    (N j : Nat) (s : σ) (hj : j < N)
    (hok : okResult (delResAt ops key s j))
    (hfail : ∀ i, i < j → ¬ okResult (delResAt ops key s i)) :
    Retry.delLoop ops key s N
      = (delIter ops key s (j + 1), delResAt ops key s j) := by
  obtain ⟨f, rfl⟩ : ∃ f, N = j + (f + 1) := ⟨N - j - 1, by omega⟩
  rw [delLoop_skip ops key j f s hfail]
  rcases hg : ops.del (delIter ops key s j) key with ⟨s1, r⟩
  have hs1 : delIter ops key s (j + 1) = s1 := by rw [delIter, hg]
  have hr : delResAt ops key s j = r := by rw [delResAt, hg]
  rw [hr] at hok
  cases r with
  | ok u => simp [Retry.delLoop, hg, hs1, hr]
  | error e => exact absurd hok (fun h => h)

/-- When every one of the `N` wrapped `Delete` attempts fails, the loop
makes exactly `N` wrapped calls and returns the last attempt's error. -/
theorem delLoop_all_fail (ops : StoreOps σ) (key : String) (N : Nat)
    (s : σ) (hN : 0 < N)
    (hfail : ∀ i, i < N → ¬ okResult (delResAt ops key s i)) :
    Retry.delLoop ops key s N
      = (delIter ops key s N, delResAt ops key s (N - 1)) := by
  obtain ⟨m, rfl⟩ : ∃ m, N = m + 1 := ⟨N - 1, by omega⟩
  rw [show m + 1 = m + (0 + 1) by omega,
    delLoop_skip ops key m 0 s (fun i hi => hfail i (by omega))]
  rcases hg : ops.del (delIter ops key s m) key with ⟨s1, r⟩
  have hr : delResAt ops key s m = r := by rw [delResAt, hg]
  have hfm := hfail m (by omega)
  rw [hr] at hfm
  cases r with
  | ok u => exact absurd trivial hfm
  | error e =>
    have hs1 : delIter ops key s (m + 1) = s1 := by rw [delIter, hg]
    simp [Retry.delLoop, hg, hs1, hr]

end RetryTrajectory

/-- **C5**: a `retry` decorator with `attempts = N > 0` invokes the
wrapped operation sequentially at most `N` times, stopping and
returning at the first successful attempt (for `Get`, NotFound counts
as a terminal answer); when all `N` attempts fail, exactly `N` wrapped
calls are made (the final wrapped state is the `N`-step trajectory
state) and the `N`-th attempt's error is returned.  Stated for `Get`,
`Set` and `Delete` over the wrapped store's call trajectories. -/
theorem C5_retry_attempts_bound {σ : Type u} (ops : StoreOps σ)
    (key : String) (data : Value) (s : σ) (N : Nat) (hN : 0 < N) :
    ((∀ j, j < N → getTerminal (getResAt ops key s j) →
        (∀ i, i < j → ¬ getTerminal (getResAt ops key s i)) →
        (retryOps ops N).get s key
          = (getIter ops key s (j + 1), getResAt ops key s j)) ∧
      ((∀ i, i < N → ¬ getTerminal (getResAt ops key s i)) →
        (retryOps ops N).get s key
          = (getIter ops key s N, getResAt ops key s (N - 1)))) ∧
    ((∀ j, j < N → okResult (setResAt ops key data s j) →
        (∀ i, i < j → ¬ okResult (setResAt ops key data s i)) →
        (retryOps ops N).set s key data
          = (setIter ops key data s (j + 1), setResAt ops key data s j)) ∧
      ((∀ i, i < N → ¬ okResult (setResAt ops key data s i)) →
        (retryOps ops N).set s key data
          = (setIter ops key data s N, setResAt ops key data s (N - 1)))) ∧
    ((∀ j, j < N → okResult (delResAt ops key s j) →
        (∀ i, i < j → ¬ okResult (delResAt ops key s i)) →
        (retryOps ops N).del s key
          = (delIter ops key s (j + 1), delResAt ops key s j)) ∧
      ((∀ i, i < N → ¬ okResult (delResAt ops key s i)) →
        (retryOps ops N).del s key
          = (delIter ops key s N, delResAt ops key s (N - 1)))) := by
  refine ⟨⟨?_, ?_⟩, ⟨?_, ?_⟩, ⟨?_, ?_⟩⟩
  · exact fun j hj ht hf => getLoop_first_terminal ops key N j s hj ht hf
  · exact fun hf => getLoop_all_fail ops key N s hN hf
  · exact fun j hj ht hf => setLoop_first_ok ops key data N j s hj ht hf
  · exact fun hf => setLoop_all_fail ops key data N s hN hf
  · exact fun j hj ht hf => delLoop_first_ok ops key N j s hj ht hf
  · exact fun hf => delLoop_all_fail ops key N s hN hf

/-- Witness for C5 on a scripted backend whose `Get` fails twice and
then succeeds, whose `Set` always fails, and whose `Delete` fails once
then succeeds: `Get` with 5 attempts stops after the 3rd call, `Set`
with 3 attempts makes exactly 3 calls and reports the last error, and
`Delete` with 4 attempts stops after the 2nd call. -/
theorem C5_retry_attempts_bound_witness :
    (retryOps (oracleStore
        (fun n => if n < 2 then .error (.other n) else .ok (some [9]))
        (fun n => .error (.other n))
        (fun n => if n = 0 then .error (.other 5) else .ok ())) 5).get 0 "k"
      = (3, .ok (some [9])) ∧
    (retryOps (oracleStore
        (fun n => if n < 2 then .error (.other n) else .ok (some [9]))
        (fun n => .error (.other n))
        (fun n => if n = 0 then .error (.other 5) else .ok ())) 3).set 0 "k"
        (some [1])
      = (3, .error (.other 2)) ∧
    (retryOps (oracleStore
        (fun n => if n < 2 then .error (.other n) else .ok (some [9]))
        (fun n => .error (.other n))
        (fun n => if n = 0 then .error (.other 5) else .ok ())) 4).del 0 "k"
      = (2, .ok ()) :=
  ⟨(((C5_retry_attempts_bound _ "k" (some [1]) 0 5 (by decide)).1.1)
      2 (by decide) (by decide) (by decide)).trans rfl,
   (((C5_retry_attempts_bound _ "k" (some [1]) 0 3 (by decide)).2.1.2)
      (by decide)).trans rfl,
   (((C5_retry_attempts_bound _ "k" (some [1]) 0 4 (by decide)).2.2.1)
      1 (by decide) (by decide) (by decide)).trans rfl⟩

/-- **C6**: when the wrapped `Get` returns the NotFound error on some
attempt (every earlier attempt having failed with a retryable error, so
the loop reaches that attempt), `retry.Get` stops immediately at that
attempt — the final wrapped state is the `(j+1)`-call trajectory state,
so no further wrapped calls are made — and returns that NotFound
result. -/
theorem C6_retry_get_notfound_terminal {σ : Type u} (ops : StoreOps σ)
    (key : String) (s : σ) (N j : Nat) (hj : j < N)
    (hfail : ∀ i, i < j → ¬ getTerminal (getResAt ops key s i))
    (hnf : getResAt ops key s j = .error .notFound) :
    (retryOps ops N).get s key
      = (getIter ops key s (j + 1), .error .notFound) := by
  have ht : getTerminal (getResAt ops key s j) := by
    rw [hnf]
    exact rfl
  have h := getLoop_first_terminal ops key N j s hj ht hfail
  rw [hnf] at h
  exact h

/-- Witness for C6 on a scripted backend whose `Get` fails once with a
retryable error and then reports NotFound: with 5 attempts, the loop
stops after the 2nd call and returns NotFound. -/
theorem C6_retry_get_notfound_terminal_witness :
    (retryOps (oracleStore
        (fun n => if n = 0 then .error (.other 1) else .error .notFound)
        (fun _ => .ok ()) (fun _ => .ok ())) 5).get 0 "k"
      = (2, .error .notFound) :=
  (C6_retry_get_notfound_terminal
    (oracleStore
      (fun n => if n = 0 then .error (.other 1) else .error .notFound)
      (fun _ => .ok ()) (fun _ => .ok ()))
    "k" 0 5 1 (by decide) (by decide) rfl).trans rfl

/-- **C1**: on the in-memory backend, and on every decorator
composition over it that the constructors can actually build
(positive retry attempts and cache sizes), `Set(k, v)` succeeds and an
immediately following `Get(k)` on the resulting state returns a value
byte-for-byte equal to `v`. -/
theorem C1_set_then_get (c : Comp) :
    c.wf = true → ∀ (s : c.State) (k : String) (v : Value),
      (c.stOps.set s k v).2 = .ok () ∧
      (c.stOps.get (c.stOps.set s k v).1 k).2 = .ok v := by
  induction c with
  | mem =>
    intro _ s k v
    constructor
    · rfl
    · show (Memory.get ((k, dup v) :: s) k).2 = .ok v
      simp [Memory.get, Memory.lookup, dup_eq]
  | retry n c ih =>
    intro hwf s k v
    rw [Comp.wf, Bool.and_eq_true, decide_eq_true_eq] at hwf
    obtain ⟨m, rfl⟩ : ∃ m, n = m + 1 := ⟨n - 1, by omega⟩
    rcases hset : c.stOps.set s k v with ⟨s1, r⟩
    have hr : r = .ok () := by
      have := (ih hwf.2 s k v).1
      rw [hset] at this
      exact this
    subst hr
    have hs : (Comp.stOps (Comp.retry (m + 1) c)).set s k v = (s1, .ok ()) := by
      show Retry.setLoop c.stOps k v s (m + 1) = (s1, .ok ())
      rw [Retry.setLoop.eq_2, hset]
    rw [hs]
    refine ⟨rfl, ?_⟩
    rcases hget : c.stOps.get s1 k with ⟨s2, r2⟩
    have hr2 : r2 = .ok v := by
      have := (ih hwf.2 s k v).2
      rw [hset] at this
      rw [hget] at this
      exact this
    subst hr2
    show (Retry.getLoop c.stOps k s1 (m + 1)).2 = .ok v
    rw [Retry.getLoop.eq_2, hget]
  | cache n c ih =>
    intro hwf st k v
    rw [Comp.wf, Bool.and_eq_true, decide_eq_true_eq] at hwf
    obtain ⟨cl, s0⟩ := st
    rcases hset : c.stOps.set s0 k v with ⟨s1, r⟩
    have hr : r = .ok () := by
      have := (ih hwf.2 s0 k v).1
      rw [hset] at this
      exact this
    subst hr
    have hs : (Comp.stOps (Comp.cache n c)).set (cl, s0) k v
        = (((cl.remove k).add k v, s1), .ok ()) := by
      show (cacheOps c.stOps).set (cl, s0) k v = _
      simp [cacheOps, hset, dup_eq]
    rw [hs]
    refine ⟨rfl, ?_⟩
    show ((cacheOps c.stOps).get ((cl.remove k).add k v, s1) k).2 = .ok v
    rcases lruFind_add_self_or (cl.remove k) k v with hfind | hfind
    · simp [cacheOps, LRU.get, hfind, dup_eq]
    · rcases hget : c.stOps.get s1 k with ⟨s2, r2⟩
      have hr2 : r2 = .ok v := by
        have := (ih hwf.2 s0 k v).2
        rw [hset] at this
        rw [hget] at this
        exact this
      subst hr2
      simp [cacheOps, LRU.get, hfind, hget]

/-- Witness for C1 on the composition Cache(2) over Retry(3) over
Memory, from the freshly constructed state. -/
theorem C1_set_then_get_witness :
    ((Comp.cache 2 (Comp.retry 3 Comp.mem)).stOps.set
        (Comp.cache 2 (Comp.retry 3 Comp.mem)).init "a" (some [1, 2])).2
      = .ok () ∧
    ((Comp.cache 2 (Comp.retry 3 Comp.mem)).stOps.get
        ((Comp.cache 2 (Comp.retry 3 Comp.mem)).stOps.set
          (Comp.cache 2 (Comp.retry 3 Comp.mem)).init "a" (some [1, 2])).1
        "a").2
      = .ok (some [1, 2]) :=
  C1_set_then_get (Comp.cache 2 (Comp.retry 3 Comp.mem)) (by decide)
    (Comp.cache 2 (Comp.retry 3 Comp.mem)).init "a" (some [1, 2])

section LoopPreservation

variable {σ : Type u}

/-- A state predicate preserved by single wrapped `Get` calls is
preserved by the whole `retry.Get` loop. -/
theorem getLoop_preserves (ops : StoreOps σ) (key : String) (P : σ → Prop)
    (hstep : ∀ s, P s → P ((ops.get s key).1)) :
    ∀ n s, P s → P ((Retry.getLoop ops key s n).1) := by
  intro n
  induction n with
  | zero => exact fun s hP => hP
  | succ n ih =>
    intro s hP
    rcases hg : ops.get s key with ⟨s1, r⟩
    have hP1 : P s1 := by
      have h := hstep s hP
      rw [hg] at h
      exact h
    rw [Retry.getLoop.eq_2, hg]
    cases r with
    | ok v => exact hP1
    | error e =>
      cases e with
      | notFound => exact hP1
      | other i =>
        cases n with
        | zero => exact hP1
        | succ m => exact ih s1 hP1

/-- A state predicate preserved by single wrapped `Set` calls is
preserved by the whole `retry.Set` loop. -/
theorem setLoop_preserves (ops : StoreOps σ) (key : String) (data : Value)
    (P : σ → Prop) (hstep : ∀ s, P s → P ((ops.set s key data).1)) :
    ∀ n s, P s → P ((Retry.setLoop ops key data s n).1) := by
  intro n
  induction n with
  | zero => exact fun s hP => hP
  | succ n ih =>
    intro s hP
    rcases hg : ops.set s key data with ⟨s1, r⟩
    have hP1 : P s1 := by
      have h := hstep s hP
      rw [hg] at h
      exact h
    rw [Retry.setLoop.eq_2, hg]
    cases r with
    | ok u => exact hP1
    | error e =>
      cases n with
      | zero => exact hP1
      | succ m => exact ih s1 hP1

/-- A state predicate preserved by single wrapped `Delete` calls is
preserved by the whole `retry.Delete` loop. -/
theorem delLoop_preserves (ops : StoreOps σ) (key : String) (P : σ → Prop)
    (hstep : ∀ s, P s → P ((ops.del s key).1)) :
    ∀ n s, P s → P ((Retry.delLoop ops key s n).1) := by
  intro n
  induction n with
  | zero => exact fun s hP => hP
  | succ n ih =>
    intro s hP
    rcases hg : ops.del s key with ⟨s1, r⟩
    have hP1 : P s1 := by
      have h := hstep s hP
      rw [hg] at h
      exact h
    rw [Retry.delLoop.eq_2, hg]
    cases r with
    | ok u => exact hP1
    | error e =>
      cases n with
      | zero => exact hP1
      | succ m => exact ih s1 hP1

/-- A state predicate established by every single wrapped `Delete` call
is established by the `retry.Delete` loop whenever it runs at least
once. -/
theorem delLoop_establishes (ops : StoreOps σ) (key : String) (P : σ → Prop)
    (hstep : ∀ s, P ((ops.del s key).1)) :
    ∀ n s, 0 < n → P ((Retry.delLoop ops key s n).1) := by
  intro n
  induction n with
  | zero => intro s h; omega
  | succ n ih =>
    intro s _
    rcases hg : ops.del s key with ⟨s1, r⟩
    have hP1 : P s1 := by
      have h := hstep s
      rw [hg] at h
      exact h
    rw [Retry.delLoop.eq_2, hg]
    cases r with
    | ok u => exact hP1
    | error e =>
      cases n with
      | zero => exact hP1
      | succ m => exact ih s1 (Nat.succ_pos m)

end LoopPreservation

section AbsenceHelpers

variable {α : Type u}

/-- Characterisation of an absent key in a memory map. -/
theorem memory_lookup_eq_none_iff {m : Memory} {k : String} :
    m.lookup k = none ↔ ∀ p ∈ m, p.1 ≠ k := by
  induction m with
  | nil => simp [Memory.lookup]
  | cons q t ih =>
    obtain ⟨k', v⟩ := q
    by_cases hk : k' = k
    · subst hk
      simp [Memory.lookup]
    · simp [Memory.lookup, hk, ih]

/-- `memory.Get` does not modify the map. -/
theorem memory_get_fst (m : Memory) (k : String) : (Memory.get m k).1 = m := by
  rw [Memory.get]
  cases h : m.lookup k <;> simp

/-- Pushing a binding for a different key does not make `k` present. -/
theorem memory_lookup_cons_ne (m : Memory) (k k' : String) (v : Value)
    (hne : k' ≠ k) : Memory.lookup ((k', v) :: m) k = m.lookup k := by
  simp [Memory.lookup, hne]

/-- Go `delete` leaves the deleted key absent. -/
theorem memory_lookup_filter_self (m : Memory) (k : String) :
    Memory.lookup (m.filter (fun p => p.1 ≠ k)) k = none := by
  rw [memory_lookup_eq_none_iff]
  intro p hp
  simpa using List.of_mem_filter hp

/-- An absent key stays absent through an `add` of a different key. -/
theorem lruFind_add_preserve_none (c : LRU α) (key k : String) (v : α)
    (hne : key ≠ k) (h : lruFind c.entries k = none) :
    lruFind (c.add key v).entries k = none := by
  rw [lruFind_eq_none_iff] at h ⊢
  intro p hp
  rcases mem_add_entries c key v hp with h1 | h1
  · rw [h1]
    exact hne
  · exact h p h1

/-- An absent key stays absent when a hit on a different key moves that
entry to the front. -/
theorem lruFind_move_preserve_none (cl : LRU α) (k k' : String) (val : α)
    (hne : k' ≠ k) (h : lruFind cl.entries k = none) :
    lruFind ((k', val) :: cl.entries.filter (fun p => p.1 ≠ k')) k = none := by
  rw [lruFind_eq_none_iff] at h ⊢
  intro p hp
  rcases List.mem_cons.mp hp with h1 | h1
  · rw [h1]
    exact hne
  · exact h p (List.mem_of_mem_filter h1)

/-- An absent key stays absent through a `remove`. -/
theorem lruFind_remove_preserve_none (cl : LRU α) (k k' : String)
    (h : lruFind cl.entries k = none) :
    lruFind (cl.remove k').entries k = none :=
  lruFind_eq_none_of_subset (fun _ hp => List.mem_of_mem_filter hp) h

end AbsenceHelpers

/-- On an absent key, every well-formed composition's `Get` fails with
the distinguished NotFound error. -/
theorem absent_get_notFound (c : Comp) :
    c.wf = true → ∀ (k : String) (s : c.State), c.absent k s →
      (c.stOps.get s k).2 = .error .notFound := by
  induction c with
  | mem =>
    intro _ k s habs
    have h : Memory.lookup s k = none := habs
    show (Memory.get s k).2 = _
    simp [Memory.get, h]
  | retry n c ih =>
    intro hwf k s habs
    rw [Comp.wf, Bool.and_eq_true, decide_eq_true_eq] at hwf
    obtain ⟨m, rfl⟩ : ∃ m, n = m + 1 := ⟨n - 1, by omega⟩
    rcases hg : c.stOps.get s k with ⟨s1, r⟩
    have hr : r = .error .notFound := by
      have h := ih hwf.2 k s habs
      rw [hg] at h
      exact h
    subst hr
    show (Retry.getLoop c.stOps k s (m + 1)).2 = _
    rw [Retry.getLoop.eq_2, hg]
    rfl
  | cache n c ih =>
    intro hwf k st habs
    rw [Comp.wf, Bool.and_eq_true, decide_eq_true_eq] at hwf
    obtain ⟨cl, s0⟩ := st
    obtain ⟨hcl, hin⟩ :
        lruFind cl.entries k = none ∧ Comp.absent k c s0 := habs
    rcases hg : c.stOps.get s0 k with ⟨s1, r⟩
    have hr : r = .error .notFound := by
      have h := ih hwf.2 k s0 hin
      rw [hg] at h
      exact h
    subst hr
    show ((cacheOps c.stOps).get (cl, s0) k).2 = _
    simp [cacheOps, LRU.get, hcl, hg]

/-- Absence of a key is preserved by any `Get` (of any key) on a
well-formed composition. -/
theorem absent_preserved_get (c : Comp) :
    c.wf = true → ∀ (k k' : String) (s : c.State), c.absent k s →
      c.absent k ((c.stOps.get s k').1) := by
  induction c with
  | mem =>
    intro _ k k' s habs
    show Comp.absent k Comp.mem ((Memory.get s k').1)
    rw [memory_get_fst]
    exact habs
  | retry n c ih =>
    intro hwf k k' s habs
    rw [Comp.wf, Bool.and_eq_true, decide_eq_true_eq] at hwf
    exact getLoop_preserves c.stOps k' (fun t => Comp.absent k c t)
      (fun t h => ih hwf.2 k k' t h) n s habs
  | cache n c ih =>
    intro hwf k k' st habs
    rw [Comp.wf, Bool.and_eq_true, decide_eq_true_eq] at hwf
    obtain ⟨cl, s0⟩ := st
    obtain ⟨hcl, hin⟩ :
        lruFind cl.entries k = none ∧ Comp.absent k c s0 := habs
    show Comp.absent k (Comp.cache n c) (((cacheOps c.stOps).get (cl, s0) k').1)
    cases hf : lruFind cl.entries k' with
    | some val =>
      have hkk : k' ≠ k := by
        intro h
        rw [h, hcl] at hf
        cases hf
      have hres : ((cacheOps c.stOps).get (cl, s0) k').1
          = ({ cl with entries :=
                (k', val) :: cl.entries.filter (fun p => p.1 ≠ k') }, s0) := by
        simp [cacheOps, LRU.get, hf]
      rw [hres]
      exact ⟨lruFind_move_preserve_none cl k k' val hkk hcl, hin⟩
    | none =>
      rcases hg : c.stOps.get s0 k' with ⟨s1, r⟩
      have hin1 : Comp.absent k c s1 := by
        have h := ih hwf.2 k k' s0 hin
        rw [hg] at h
        exact h
      cases r with
      | error e =>
        have hres : ((cacheOps c.stOps).get (cl, s0) k').1 = (cl, s1) := by
          simp [cacheOps, LRU.get, hf, hg]
        rw [hres]
        exact ⟨hcl, hin1⟩
      | ok data =>
        have hkk : k' ≠ k := by
          intro h
          subst h
          have hnf := absent_get_notFound c hwf.2 k' s0 hin
          rw [hg] at hnf
          cases hnf
        have hres : ((cacheOps c.stOps).get (cl, s0) k').1
            = (cl.add k' (dup data), s1) := by
          simp [cacheOps, LRU.get, hf, hg]
        rw [hres]
        exact ⟨lruFind_add_preserve_none cl k' k (dup data) hkk hcl, hin1⟩

/-- Absence of a key is preserved by a `Set` of a different key on a
well-formed composition. -/
theorem absent_preserved_set (c : Comp) :
    c.wf = true → ∀ (k k' : String) (v : Value) (s : c.State), k' ≠ k →
      c.absent k s → c.absent k ((c.stOps.set s k' v).1) := by
  induction c with
  | mem =>
    intro _ k k' v s hne habs
    have h : Memory.lookup s k = none := habs
    show Memory.lookup ((k', dup v) :: s) k = none
    rw [memory_lookup_cons_ne s k k' (dup v) hne]
    exact h
  | retry n c ih =>
    intro hwf k k' v s hne habs
    rw [Comp.wf, Bool.and_eq_true, decide_eq_true_eq] at hwf
    exact setLoop_preserves c.stOps k' v (fun t => Comp.absent k c t)
      (fun t h => ih hwf.2 k k' v t hne h) n s habs
  | cache n c ih =>
    intro hwf k k' v st hne habs
    rw [Comp.wf, Bool.and_eq_true, decide_eq_true_eq] at hwf
    obtain ⟨cl, s0⟩ := st
    obtain ⟨hcl, hin⟩ :
        lruFind cl.entries k = none ∧ Comp.absent k c s0 := habs
    have hrm : lruFind (cl.remove k').entries k = none :=
      lruFind_remove_preserve_none cl k k' hcl
    show Comp.absent k (Comp.cache n c)
      (((cacheOps c.stOps).set (cl, s0) k' v).1)
    rcases hg : c.stOps.set s0 k' v with ⟨s1, r⟩
    have hin1 : Comp.absent k c s1 := by
      have h := ih hwf.2 k k' v s0 hne hin
      rw [hg] at h
      exact h
    cases r with
    | error e =>
      have hres : ((cacheOps c.stOps).set (cl, s0) k' v).1
          = (cl.remove k', s1) := by
        simp [cacheOps, hg]
      rw [hres]
      exact ⟨hrm, hin1⟩
    | ok u =>
      have hres : ((cacheOps c.stOps).set (cl, s0) k' v).1
          = ((cl.remove k').add k' (dup v), s1) := by
        simp [cacheOps, hg]
      rw [hres]
      exact ⟨lruFind_add_preserve_none (cl.remove k') k' k (dup v) hne hrm,
        hin1⟩

/-- Absence of a key is preserved by a `Delete` of a different key on a
well-formed composition. -/
theorem absent_preserved_del (c : Comp) :
    c.wf = true → ∀ (k k' : String) (s : c.State), k' ≠ k →
      c.absent k s → c.absent k ((c.stOps.del s k').1) := by
  induction c with
  | mem =>
    intro _ k k' s hne habs
    have h : Memory.lookup s k = none := habs
    show Memory.lookup (s.filter (fun p => p.1 ≠ k')) k = none
    rw [memory_lookup_eq_none_iff] at h ⊢
    exact fun p hp => h p (List.mem_of_mem_filter hp)
  | retry n c ih =>
    intro hwf k k' s hne habs
    rw [Comp.wf, Bool.and_eq_true, decide_eq_true_eq] at hwf
    exact delLoop_preserves c.stOps k' (fun t => Comp.absent k c t)
      (fun t h => ih hwf.2 k k' t hne h) n s habs
  | cache n c ih =>
    intro hwf k k' st hne habs
    rw [Comp.wf, Bool.and_eq_true, decide_eq_true_eq] at hwf
    obtain ⟨cl, s0⟩ := st
    obtain ⟨hcl, hin⟩ :
        lruFind cl.entries k = none ∧ Comp.absent k c s0 := habs
    show Comp.absent k (Comp.cache n c) (((cacheOps c.stOps).del (cl, s0) k').1)
    rcases hg : c.stOps.del s0 k' with ⟨s1, r⟩
    have hin1 : Comp.absent k c s1 := by
      have h := ih hwf.2 k k' s0 hne hin
      rw [hg] at h
      exact h
    have hres : ((cacheOps c.stOps).del (cl, s0) k').1
        = (cl.remove k', s1) := by
      simp [cacheOps, hg]
    rw [hres]
    exact ⟨lruFind_remove_preserve_none cl k k' hcl, hin1⟩

/-- A `Delete` of the key itself establishes its absence on a
well-formed composition. -/
theorem absent_established_del (c : Comp) :
    c.wf = true → ∀ (k : String) (s : c.State),
      c.absent k ((c.stOps.del s k).1) := by
  induction c with
  | mem =>
    intro _ k s
    show Memory.lookup (s.filter (fun p => p.1 ≠ k)) k = none
    exact memory_lookup_filter_self s k
  | retry n c ih =>
    intro hwf k s
    rw [Comp.wf, Bool.and_eq_true, decide_eq_true_eq] at hwf
    exact delLoop_establishes c.stOps k (fun t => Comp.absent k c t)
      (fun t => ih hwf.2 k t) n s hwf.1
  | cache n c ih =>
    intro hwf k st
    rw [Comp.wf, Bool.and_eq_true, decide_eq_true_eq] at hwf
    obtain ⟨cl, s0⟩ := st
    show Comp.absent k (Comp.cache n c) (((cacheOps c.stOps).del (cl, s0) k).1)
    rcases hg : c.stOps.del s0 k with ⟨s1, r⟩
    have hin1 : Comp.absent k c s1 := by
      have h := ih hwf.2 k s0
      rw [hg] at h
      exact h
    have hres : ((cacheOps c.stOps).del (cl, s0) k).1
        = (cl.remove k, s1) := by
      simp [cacheOps, hg]
    rw [hres]
    exact ⟨lruFind_remove_self cl k, hin1⟩

/-- Every key is absent from a freshly constructed composition. -/
theorem absent_init (c : Comp) (k : String) : c.absent k c.init := by
  induction c with
  | mem => rfl
  | retry n c ih => exact ih
  | cache n c ih => exact ⟨rfl, ih⟩

/-- Running one more operation at the end of a history. -/
theorem run_append (c : Comp) (hist : List Op) (op : Op) (s : c.State) :
    c.run (hist ++ [op]) s = c.step (c.run hist s) op := by
  simp [Comp.run, List.foldl_append]

/-- The key-liveness bookkeeping of a history, one operation at a
time. -/
theorem keyAbsent_append (k : String) (hist : List Op) (op : Op) :
    keyAbsent k (hist ++ [op]) = absStep k (keyAbsent k hist) op := by
  simp [keyAbsent, List.foldl_append]

/-- Main invariant behind the NotFound claim: after any history in
which `k` was never set, or was deleted after its last `Set`, the key
is absent from every layer of a well-formed composition run from its
fresh state. -/
theorem absent_run (c : Comp) (hwf : c.wf = true) (k : String) :
    ∀ (hist : List Op), keyAbsent k hist = true →
      c.absent k (c.run hist c.init) := by
  intro hist
  induction hist using List.reverseRecOn with
  | nil => exact fun _ => absent_init c k
  | append_singleton l op ih =>
    intro hka
    rw [keyAbsent_append] at hka
    rw [run_append]
    cases op with
    | get k' =>
      have hka' : keyAbsent k l = true := hka
      exact absent_preserved_get c hwf k k' _ (ih hka')
    | set k' v =>
      have hka2 : (if k' = k then false else keyAbsent k l) = true := hka
      by_cases hkk : k' = k
      · rw [if_pos hkk] at hka2
        cases hka2
      · rw [if_neg hkk] at hka2
        exact absent_preserved_set c hwf k k' v _ hkk (ih hka2)
    | del k' =>
      by_cases hkk : k' = k
      · subst hkk
        exact absent_established_del c hwf k' _
      · have hka2 : (if k' = k then true else keyAbsent k l) = true := hka
        rw [if_neg hkk] at hka2
        exact absent_preserved_del c hwf k k' _ hkk (ih hka2)

/-- **C2**: for every key that was never set, or whose most recent
mutation in the history was a `Delete`, `Get` fails with exactly the
distinguished NotFound error — on the memory backend and on every
well-formed RetryStore/CacheStore composition over it, run from its
freshly constructed state. -/
theorem C2_get_notfound (c : Comp) (hwf : c.wf = true) (k : String)
    (hist : List Op) (hka : keyAbsent k hist = true) :
    (c.stOps.get (c.run hist c.init) k).2 = .error .notFound :=
  absent_get_notFound c hwf k _ (absent_run c hwf k hist hka)

/-- Witness for C2 on Cache(2) over Retry(2) over Memory with the
history Set "a"; Delete "a"; Set "b"; Get "b": getting "a" afterwards
reports NotFound. -/
theorem C2_get_notfound_witness :
    ((Comp.cache 2 (Comp.retry 2 Comp.mem)).stOps.get
        ((Comp.cache 2 (Comp.retry 2 Comp.mem)).run
          [Op.set "a" (some [1]), Op.del "a", Op.set "b" (some [2]),
            Op.get "b"]
          (Comp.cache 2 (Comp.retry 2 Comp.mem)).init) "a").2
      = .error .notFound :=
  C2_get_notfound (Comp.cache 2 (Comp.retry 2 Comp.mem)) (by decide) "a"
    [Op.set "a" (some [1]), Op.del "a", Op.set "b" (some [2]), Op.get "b"]
    (by decide)

section EvictionWorkload

variable {α : Type u}

/-- Structure equality for LRU caches from field equality. -/
theorem lru_eq {c c' : LRU α} (h1 : c.size = c'.size)
    (h2 : c.entries = c'.entries) : c = c' := by
  cases c
  cases c'
  cases h1
  cases h2
  rfl

/-- Removing an absent key is a no-op. -/
theorem remove_eq_self_fresh (c : LRU α) (k : String)
    (hfresh : lruFind c.entries k = none) : c.remove k = c :=
  lru_eq rfl (remove_entries_fresh c k hfresh)

/-- `take n` absorbs an inner `take n` under an append. -/
theorem take_append_take (n : Nat) (X Y : List α) :
    List.take n (X ++ List.take n Y) = List.take n (X ++ Y) := by
  rw [List.take_append_eq_append_take, List.take_append_eq_append_take,
    List.take_take]
  have hmin : (n - X.length) ⊓ n = n - X.length :=
    inf_eq_left.mpr (Nat.sub_le n X.length)
  rw [hmin]

/-- A `Set`-mode workload step: write through to the counting memory
backend (which always succeeds) and insert into the cache. -/
theorem insStep_set (cl : LRU Value) (m : Memory) (n : Nat) (k : String)
    (v : Value) :
    insStep (cl, (m, n)) (true, k, v)
      = ((cl.remove k).add k v, ((k, v) :: m, n + 1)) := by
  simp [insStep, cacheOps, countingOps, memoryOps, Memory.set, dup_eq]

/-- A `Get`-mode workload step on a cache-missing key held by the
backend: one backend call, and the fetched value is inserted into the
cache. -/
theorem insStep_get (cl : LRU Value) (m : Memory) (n : Nat) (k : String)
    (v : Value) (hfresh : lruFind cl.entries k = none)
    (hm : m.lookup k = some v) :
    insStep (cl, (m, n)) (false, k, v) = (cl.add k v, (m, n + 1)) := by
  simp [insStep, cacheOps, countingOps, memoryOps, Memory.get, LRU.get,
    hfresh, hm, dup_eq]

end EvictionWorkload

/-- Invariant of the eviction workload: inserting distinct fresh keys
into a cache over the counting memory backend keeps the cache entries
in most-recently-inserted-first order, truncated to the capacity, and
the backend holds every inserted pair. -/
theorem insertAll_spec :
    ∀ (steps : List (Bool × String × Value)) (cl : LRU Value) (m : Memory)
      (n : Nat),
      0 < cl.size →
      (steps.map fun p => p.2.1).Nodup →
      (∀ p ∈ steps, lruFind cl.entries p.2.1 = none) →
      (∀ p ∈ steps, p.1 = false → m.lookup p.2.1 = some p.2.2) →
      cl.entries.length ≤ cl.size →
      ∃ m' n',
        insertAll steps (cl, (m, n))
          = (⟨cl.size,
              List.take cl.size
                ((steps.map entryOf).reverse ++ cl.entries)⟩, (m', n')) ∧
        (∀ p ∈ steps, Memory.lookup m' p.2.1 = some p.2.2) ∧
        (∀ k, k ∉ steps.map (fun p => p.2.1) →
          Memory.lookup m' k = Memory.lookup m k) := by
  intro steps
  induction steps with
  | nil =>
    intro cl m n hsize hnd hfresh hm hlen
    refine ⟨m, n, ?_, by simp, fun k _ => rfl⟩
    show (cl, (m, n)) = _
    rw [List.map_nil, List.reverse_nil, List.nil_append,
      List.take_of_length_le hlen]
  | cons p rest ih =>
    intro cl m n hsize hnd hfresh hm hlen
    obtain ⟨b, k, v⟩ := p
    have hfk : lruFind cl.entries k = none :=
      hfresh (b, k, v) (List.mem_cons_self _ _)
    have hknotin : k ∉ rest.map (fun p => p.2.1) := by
      rw [List.map_cons, List.nodup_cons] at hnd
      exact hnd.1
    have hndrest : (rest.map fun p => p.2.1).Nodup := by
      rw [List.map_cons, List.nodup_cons] at hnd
      exact hnd.2
    -- the state after the first step
    have hstep : ∃ m1, insStep (cl, (m, n)) (b, k, v)
        = (cl.add k v, (m1, n + 1)) ∧ m1.lookup k = some v ∧
        (∀ k'', k'' ≠ k → Memory.lookup m1 k'' = Memory.lookup m k'') := by
      cases b with
      | true =>
        refine ⟨(k, v) :: m, ?_, by simp [Memory.lookup], ?_⟩
        · rw [insStep_set, remove_eq_self_fresh cl k hfk]
        · intro k'' hne
          exact memory_lookup_cons_ne m k'' k v (fun h => hne h.symm)
      | false =>
        have hmk : m.lookup k = some v :=
          hm (false, k, v) (List.mem_cons_self _ _) rfl
        exact ⟨m, insStep_get cl m n k v hfk hmk, hmk, fun _ _ => rfl⟩
    obtain ⟨m1, hstep1, hm1k, hm1other⟩ := hstep
    -- the cache after the first step, in take-normal form
    have hcl1 : cl.add k v
        = (⟨cl.size, List.take cl.size ((k, v) :: cl.entries)⟩ : LRU Value) :=
      lru_eq rfl (add_entries_fresh cl k v hfk hlen)
    -- apply the induction hypothesis to the remaining steps
    have hlen1 : (List.take cl.size ((k, v) :: cl.entries)).length
        ≤ cl.size := by
      rw [List.length_take]
      exact min_le_left _ _
    have hfresh1 : ∀ q ∈ rest,
        lruFind (List.take cl.size ((k, v) :: cl.entries)) q.2.1 = none := by
      intro q hq
      rw [lruFind_eq_none_iff]
      intro r hr
      rcases List.mem_cons.mp (List.take_subset _ _ hr) with h1 | h1
      · rw [h1]
        show (k, v).1 ≠ q.2.1
        intro hcon
        apply hknotin
        rw [show (k, v).1 = k from rfl] at hcon
        rw [hcon]
        exact List.mem_map.mpr ⟨q, hq, rfl⟩
      · have := hfresh q (List.mem_cons_of_mem _ hq)
        rw [lruFind_eq_none_iff] at this
        exact this r h1
    have hm1 : ∀ q ∈ rest, q.1 = false →
        Memory.lookup m1 q.2.1 = some q.2.2 := by
      intro q hq hqf
      have hne : q.2.1 ≠ k := by
        intro h
        exact hknotin (h ▸ List.mem_map.mpr ⟨q, hq, rfl⟩)
      rw [hm1other q.2.1 hne]
      exact hm q (List.mem_cons_of_mem _ hq) hqf
    obtain ⟨m', n', hrun, hf1, hf2⟩ :=
      ih (⟨cl.size, List.take cl.size ((k, v) :: cl.entries)⟩ : LRU Value)
        m1 (n + 1) hsize hndrest hfresh1 hm1 hlen1
    refine ⟨m', n', ?_, ?_, ?_⟩
    · show insertAll ((b, k, v) :: rest) (cl, (m, n)) = _
      rw [show insertAll ((b, k, v) :: rest) (cl, (m, n))
          = insertAll rest (insStep (cl, (m, n)) (b, k, v)) from rfl,
        hstep1, hcl1, hrun]
      refine congrArg (fun x =>
        ((⟨cl.size, x⟩ : LRU Value), (m', n'))) ?_
      rw [take_append_take]
      rw [show ((b, k, v) :: rest).map entryOf
          = entryOf (b, k, v) :: rest.map entryOf from rfl,
        List.reverse_cons]
      rw [show entryOf (b, k, v) = (k, v) from rfl]
      rw [List.append_assoc]
      rfl
    · intro q hq
      rcases List.mem_cons.mp hq with h1 | h1
      · rw [h1]
        show Memory.lookup m' k = some v
        rw [hf2 k hknotin]
        exact hm1k
      · exact hf1 q h1
    · intro k'' hk''
      rw [List.map_cons, List.mem_cons] at hk''
      push_neg at hk''
      rw [hf2 k'' hk''.2]
      exact hm1other k'' hk''.1

/-- **C3**: for a cache of capacity `C ≥ 1` over the counting memory
backend, after inserting `C + 1` distinct keys — each via a successful
`Set` or a `Get`-miss fill — the first-inserted (least recently
accessed) key is no longer held in the cache: a subsequent `Get` for it
reaches the wrapped backend (the call counter increments) yet still
returns its value, while a `Get` for each of the other `C` keys is
served from the cache with no backend call and returns its value. -/
theorem C3_lru_eviction (C : Nat) (hC : 0 < C)
    (b0 : Bool) (k0 : String) (v0 : Value)
    (rest : List (Bool × String × Value)) (m0 : Memory) (n0 : Nat)
    (hlen : ((b0, k0, v0) :: rest).length = C + 1)
    (hnd : (((b0, k0, v0) :: rest).map fun p => p.2.1).Nodup)
    (hm0 : ∀ p ∈ (b0, k0, v0) :: rest, p.1 = false →
      Memory.lookup m0 p.2.1 = some p.2.2) :
    ((cacheOps (countingOps memoryOps)).get
        (insertAll ((b0, k0, v0) :: rest) (⟨C, []⟩, (m0, n0))) k0).1.2.2
      = (insertAll ((b0, k0, v0) :: rest) (⟨C, []⟩, (m0, n0))).2.2 + 1 ∧
    ((cacheOps (countingOps memoryOps)).get
        (insertAll ((b0, k0, v0) :: rest) (⟨C, []⟩, (m0, n0))) k0).2
      = .ok v0 ∧
    (∀ p ∈ rest,
      ((cacheOps (countingOps memoryOps)).get
          (insertAll ((b0, k0, v0) :: rest) (⟨C, []⟩, (m0, n0))) p.2.1).1.2.2
        = (insertAll ((b0, k0, v0) :: rest) (⟨C, []⟩, (m0, n0))).2.2 ∧
      ((cacheOps (countingOps memoryOps)).get
          (insertAll ((b0, k0, v0) :: rest) (⟨C, []⟩, (m0, n0))) p.2.1).2
        = .ok p.2.2) := by
  have hrl : rest.length = C := by
    simp only [List.length_cons] at hlen
    omega
  have hknotin : k0 ∉ rest.map (fun p => p.2.1) := by
    rw [List.map_cons, List.nodup_cons] at hnd
    exact hnd.1
  have hndrest : (rest.map fun p => p.2.1).Nodup := by
    rw [List.map_cons, List.nodup_cons] at hnd
    exact hnd.2
  obtain ⟨m', n', hrun, hf1, hf2⟩ :=
    insertAll_spec ((b0, k0, v0) :: rest) ⟨C, []⟩ m0 n0 hC hnd
      (fun p _ => rfl) hm0 (by simp)
  have hE : List.take C
        ((((b0, k0, v0) :: rest).map entryOf).reverse
          ++ ([] : List (String × Value)))
      = (rest.map entryOf).reverse := by
    rw [List.append_nil, List.map_cons, List.reverse_cons]
    have hXlen : ((rest.map entryOf).reverse).length = C := by
      simp [hrl]
    rw [show C = ((rest.map entryOf).reverse).length from hXlen.symm,
      List.take_left]
  rw [hE] at hrun
  have hmiss : lruFind ((rest.map entryOf).reverse) k0 = none := by
    rw [lruFind_eq_none_iff]
    intro q hq
    rw [List.mem_reverse, List.mem_map] at hq
    obtain ⟨r, hr, rfl⟩ := hq
    show r.2.1 ≠ k0
    intro hcon
    exact hknotin (hcon ▸ List.mem_map.mpr ⟨r, hr, rfl⟩)
  have hlk0 : Memory.lookup m' k0 = some v0 :=
    hf1 (b0, k0, v0) (List.mem_cons_self _ _)
  rw [hrun]
  refine ⟨?_, ?_, ?_⟩
  · simp [cacheOps, countingOps, memoryOps, Memory.get, LRU.get, hmiss, hlk0,
      dup_eq]
  · simp [cacheOps, countingOps, memoryOps, Memory.get, LRU.get, hmiss, hlk0,
      dup_eq]
  · intro p hp
    have hhit : lruFind ((rest.map entryOf).reverse) p.2.1 = some p.2.2 := by
      apply lruFind_eq_some_of_mem
      · rw [show (rest.map entryOf).reverse.map Prod.fst
            = (rest.map (fun q => q.2.1)).reverse by
          rw [List.map_reverse, List.map_map]
          rfl]
        exact List.nodup_reverse.mpr hndrest
      · rw [List.mem_reverse]
        exact List.mem_map.mpr ⟨p, hp, rfl⟩
    constructor
    · simp [cacheOps, LRU.get, hhit]
    · simp [cacheOps, LRU.get, hhit, dup_eq]

/-- Witness for C3 with capacity 1: inserting `"a"` by `Set` and then
`"b"` by `Get`-fill evicts `"a"`; getting `"a"` afterwards costs a
backend call and still yields `[1]`, while getting `"b"` is free and
yields `[2]`. -/
theorem C3_lru_eviction_witness :
    ((cacheOps (countingOps memoryOps)).get
        (insertAll [(true, "a", some [1]), (false, "b", some [2])]
          (⟨1, []⟩, ([("b", some [2])], 0))) "a").1.2.2
      = (insertAll [(true, "a", some [1]), (false, "b", some [2])]
          (⟨1, []⟩, ([("b", some [2])], 0))).2.2 + 1 ∧
    ((cacheOps (countingOps memoryOps)).get
        (insertAll [(true, "a", some [1]), (false, "b", some [2])]
          (⟨1, []⟩, ([("b", some [2])], 0))) "a").2
      = .ok (some [1]) ∧
    (∀ p ∈ [(false, "b", (some [2] : Value))],
      ((cacheOps (countingOps memoryOps)).get
          (insertAll [(true, "a", some [1]), (false, "b", some [2])]
            (⟨1, []⟩, ([("b", some [2])], 0))) p.2.1).1.2.2
        = (insertAll [(true, "a", some [1]), (false, "b", some [2])]
            (⟨1, []⟩, ([("b", some [2])], 0))).2.2 ∧
      ((cacheOps (countingOps memoryOps)).get
          (insertAll [(true, "a", some [1]), (false, "b", some [2])]
            (⟨1, []⟩, ([("b", some [2])], 0))) p.2.1).2
        = .ok p.2.2) :=
  C3_lru_eviction 1 (by decide) true "a" (some [1])
    [(false, "b", some [2])] [("b", some [2])] 0 (by decide) (by decide)
    (by decide)

/-- **C9**: value bytes are defensively copied at both boundaries.  For
the memory backend: after `Set(k, v)`, overwriting the caller's buffer
does not change what `Get(k)` returns; the buffer `Get` returns is a
fresh copy with the stored bytes, and overwriting it leaves the stored
state (and a second `Get`) unchanged.  For the cache's entries: after a
`cache.Set(k, v)`, overwriting the caller's buffer does not change what
a cache-hit `Get(k)` returns; and the buffer a cache-hit `Get` returns
is a fresh copy whose mutation leaves the cached bytes and a second
`Get` unchanged. -/
theorem C9_defensive_copies (h : Heap) (k : String) (bs1 : List Nat) :
    (∀ (m : HMemory) (i : Nat), i < h.next →
      (hmemGet (((hmemSet h m k (some i)).1).write i bs1)
          ((hmemSet h m k (some i)).2) k).2 = .ok (some (h.next + 1)) ∧
      ((hmemGet (((hmemSet h m k (some i)).1).write i bs1)
          ((hmemSet h m k (some i)).2) k).1).data (h.next + 1)
        = h.data i) ∧
    (∀ (m : HMemory) (j : Nat), hmemLookup m k = some (some j) →
      j < h.next →
      (hmemGet h m k).2 = .ok (some h.next) ∧
      ((hmemGet h m k).1).data h.next = h.data j ∧
      (((hmemGet h m k).1).write h.next bs1).data j = h.data j ∧
      (hmemGet (((hmemGet h m k).1).write h.next bs1) m k).2
        = .ok (some (h.next + 1)) ∧
      ((hmemGet (((hmemGet h m k).1).write h.next bs1) m k).1).data
          (h.next + 1) = h.data j) ∧
    (∀ (cl : LRU Ref) (mem : HMemory) (i : Nat), i < h.next → 0 < cl.size →
      (hcacheGet (((hcacheSet h (cl, mem) k (some i)).1).write i bs1)
          ((hcacheSet h (cl, mem) k (some i)).2.1) k).2.2
        = .ok (some (h.next + 2)) ∧
      ((hcacheGet (((hcacheSet h (cl, mem) k (some i)).1).write i bs1)
          ((hcacheSet h (cl, mem) k (some i)).2.1) k).1).data (h.next + 2)
        = h.data i) ∧
    (∀ (cl : LRU Ref) (mem : HMemory) (j : Nat),
      lruFind cl.entries k = some (some j) → j < h.next →
      (hcacheGet h (cl, mem) k).2.2 = .ok (some h.next) ∧
      ((hcacheGet h (cl, mem) k).1).data h.next = h.data j ∧
      (((hcacheGet h (cl, mem) k).1).write h.next bs1).data j = h.data j ∧
      (hcacheGet (((hcacheGet h (cl, mem) k).1).write h.next bs1)
          ((hcacheGet h (cl, mem) k).2.1) k).2.2
        = .ok (some (h.next + 1)) ∧
      ((hcacheGet (((hcacheGet h (cl, mem) k).1).write h.next bs1)
          ((hcacheGet h (cl, mem) k).2.1) k).1).data (h.next + 1)
        = h.data j) := by
  refine ⟨?_, ?_, ?_, ?_⟩
  · intro m i hi
    have hne : ¬ (h.next = i) := by omega
    constructor
    · simp [hmemSet, hmemGet, hdup, Heap.alloc, Heap.write, hmemLookup]
    · simp [hmemSet, hmemGet, hdup, Heap.alloc, Heap.write, hmemLookup, hne]
  · intro m j hlk hj
    have hne : ¬ (j = h.next) := by omega
    have hne2 : ¬ (h.next + 1 = h.next) := by omega
    refine ⟨?_, ?_, ?_, ?_, ?_⟩ <;>
      simp [hmemGet, hdup, Heap.alloc, Heap.write, hlk, hne, hne2]
  · intro cl mem i hi hsz
    have hset : hcacheSet h (cl, mem) k (some i)
        = ((((h.alloc (h.data i)).1.alloc ((h.alloc (h.data i)).1.data i)).1),
            ((cl.remove k).add k (some (h.alloc (h.data i)).1.next),
              (k, some h.next) :: mem), .ok ()) := by
      simp [hcacheSet, hmemSet, hdup, Heap.alloc]
    have hne : ¬ (i = h.next) := by omega
    have hnx : ((h.alloc (h.data i)).1.next) = h.next + 1 := rfl
    have hfind := lruFind_add_self (cl.remove k) k
      (some ((h.alloc (h.data i)).1.next)) hsz
    rw [hnx] at hfind
    rw [hset]
    constructor
    · simp [hcacheGet, LRU.get, hfind, hdup, Heap.alloc, Heap.write, hnx]
    · simp [hcacheGet, LRU.get, hfind, hdup, Heap.alloc, Heap.write, hnx, hne]
      intro hcon
      exact absurd hcon (by omega)
  · intro cl mem j hlk hj
    have hget : hcacheGet h (cl, mem) k
        = ((h.alloc (h.data j)).1,
            ({ cl with entries :=
                (k, some j) :: cl.entries.filter (fun p => p.1 ≠ k) }, mem),
            .ok (some h.next)) := by
      simp [hcacheGet, LRU.get, hlk, hdup, Heap.alloc]
    have hne : ¬ (j = h.next) := by omega
    have hne2 : ¬ (h.next + 1 = h.next) := by omega
    rw [hget]
    refine ⟨rfl, ?_, ?_, ?_, ?_⟩ <;>
      simp [hcacheGet, LRU.get, lruFind, hdup, Heap.alloc, Heap.write,
        hne, hne2]

/-- Witness for C9 on the fixture heap: the stored, cached and returned
buffers are all fresh copies, so overwriting the caller's or the
returned buffer with `[9]` never changes what the store returns. -/
theorem C9_defensive_copies_witness :
    ((hmemGet ((hmemSet heap0 [] "a" (some 0)).1.write 0 [9])
        ((hmemSet heap0 [] "a" (some 0)).2) "a").2 = .ok (some 2) ∧
      ((hmemGet ((hmemSet heap0 [] "a" (some 0)).1.write 0 [9])
        ((hmemSet heap0 [] "a" (some 0)).2) "a").1).data 2 = [1, 2]) ∧
    ((hmemGet heap0 [("a", some 0)] "a").2 = .ok (some 1) ∧
      ((hmemGet heap0 [("a", some 0)] "a").1).data 1 = [1, 2] ∧
      (((hmemGet heap0 [("a", some 0)] "a").1).write 1 [9]).data 0
        = [1, 2] ∧
      (hmemGet (((hmemGet heap0 [("a", some 0)] "a").1).write 1 [9])
        [("a", some 0)] "a").2 = .ok (some 2) ∧
      ((hmemGet (((hmemGet heap0 [("a", some 0)] "a").1).write 1 [9])
        [("a", some 0)] "a").1).data 2 = [1, 2]) ∧
    ((hcacheGet (((hcacheSet heap0 (⟨1, []⟩, []) "a" (some 0)).1).write 0 [9])
        ((hcacheSet heap0 (⟨1, []⟩, []) "a" (some 0)).2.1) "a").2.2
        = .ok (some 3) ∧
      ((hcacheGet (((hcacheSet heap0 (⟨1, []⟩, []) "a" (some 0)).1).write
          0 [9])
        ((hcacheSet heap0 (⟨1, []⟩, []) "a" (some 0)).2.1) "a").1).data 3
        = [1, 2]) ∧
    ((hcacheGet heap0 (⟨1, [("a", some 0)]⟩, []) "a").2.2
        = .ok (some 1) ∧
      ((hcacheGet heap0 (⟨1, [("a", some 0)]⟩, []) "a").1).data 1 = [1, 2] ∧
      (((hcacheGet heap0 (⟨1, [("a", some 0)]⟩, []) "a").1).write 1 [9]).data
          0 = [1, 2] ∧
      (hcacheGet (((hcacheGet heap0 (⟨1, [("a", some 0)]⟩, []) "a").1).write
          1 [9])
        ((hcacheGet heap0 (⟨1, [("a", some 0)]⟩, []) "a").2.1) "a").2.2
        = .ok (some 2) ∧
      ((hcacheGet (((hcacheGet heap0 (⟨1, [("a", some 0)]⟩, []) "a").1).write
          1 [9])
        ((hcacheGet heap0 (⟨1, [("a", some 0)]⟩, []) "a").2.1) "a").1).data 2
        = [1, 2]) :=
  ⟨(C9_defensive_copies heap0 "a" [9]).1 [] 0 (by decide),
   (C9_defensive_copies heap0 "a" [9]).2.1 [("a", some 0)] 0 rfl (by decide),
   (C9_defensive_copies heap0 "a" [9]).2.2.1 ⟨1, []⟩ [] 0 (by decide)
     (by decide),
   (C9_defensive_copies heap0 "a" [9]).2.2.2 ⟨1, [("a", some 0)]⟩ [] 0 rfl
     (by decide)⟩
